import Mathlib

/-!
Verification of the cortex dependency-aware execution engine.

This file gives a shallow embedding of the core of the repository:

* the template expander (`ExpandPrompt` in `internal/config`, file `templates.go`),
* the dependency graph builder, topological sorter and level builder
  (`internal/planner/dag.go`),
* the cycle detector (`detectCycleSlice` in `internal/config/global.go`),
* the executor (`executeSequential`, `executeParallel`, `executeTask` in
  `internal/runtime`).

Go strings are modelled as `List Char` (wrapped in `String` at the API
boundary), Go maps as association lists (`List (String × α)`) together with
functional views, Go machine integers as `Int`.  Loops whose termination is
not structural are written with an explicit fuel parameter; the fuel chosen
in the top-level definitions is proved (or argued in comments) to be large
enough that the fuel-exhaustion branch is never taken.
-/

namespace Cortex

/-! ## Template expander (`internal/config/templates.go`)

The Go code uses the regular expression `\{\{outputs\.([a-zA-Z0-9_-]+)\}\}`
(`templateVarRegex` in `global.go`) with `FindAllStringSubmatch`, and
`strings.Replace(result, placeholder, output, -1)` for substitution.
-/

/-- Character class `[a-zA-Z0-9_-]` of the template-variable regex. -/
def isIdentChar (c : Char) : Bool :=
  ('a' ≤ c && c ≤ 'z') || ('A' ≤ c && c ≤ 'Z') || ('0' ≤ c && c ≤ '9')
    || c = '_' || c = '-'

/-- The full text of a `\x7b\x7boutputs.<id>\x7d\x7d` placeholder
(capture group reconstruction of `match[0]` from `match[1]`). -/
def phOf (id : List Char) : List Char :=
  "\x7b\x7boutputs.".data ++ id ++ "\x7d\x7d".data

/-- Try to match the template-variable regex at the very start of `s`.
Returns the captured identifier (`match[1]`) and the remainder of the text
after the full match.  The regex first needs the literal `\x7b\x7boutputs.`,
then a nonempty greedy run of identifier characters, then `\x7d\x7d`;
since an identifier character is never `\x7d`, greedy matching takes exactly
the maximal identifier run. -/
def matchAt (s : List Char) : Option (List Char × List Char) :=
  if "\x7b\x7boutputs.".data.isPrefixOf s then
    let t := s.drop 10
    let id := t.takeWhile isIdentChar
    if id ≠ [] ∧ "\x7d\x7d".data.isPrefixOf (t.drop id.length) then
      some (id, (t.drop id.length).drop 2)
    else none
  else none

/-- `FindAllStringSubmatch`: scan left to right, collect the identifiers of
all non-overlapping leftmost matches, resuming after the end of each match.
`fuel` bounds the number of scan steps; every step consumes at least one
character, so `s.length` fuel is always enough. -/
def findMatchesF : Nat → List Char → List (List Char)
  | 0, _ => []
  | _ + 1, [] => []
  | fuel + 1, c :: rest =>
    match matchAt (c :: rest) with
    | some (id, after) => id :: findMatchesF fuel after
    | none => findMatchesF fuel rest

/-- All identifiers referenced by `\x7b\x7boutputs.X\x7d\x7d` patterns in
`s`, in match order (with duplicates, as `FindAllStringSubmatch` returns
them). -/
def findMatches (s : List Char) : List (List Char) :=
  findMatchesF s.length s

/-- One scanning pass of `strings.Replace(s, old, new, -1)` (non-overlapping,
leftmost): at each position, if `old` starts here emit `new` and skip
`|old|` characters, otherwise copy one character.  `fuel` bounds the scan
steps; with `old ≠ []` each step consumes at least one character. -/
def replaceAllF (old new : List Char) : Nat → List Char → List Char
  | 0, s => s
  | _ + 1, [] => []
  | fuel + 1, c :: rest =>
    if old.isPrefixOf (c :: rest) then
      new ++ replaceAllF old new fuel ((c :: rest).drop old.length)
    else
      c :: replaceAllF old new fuel rest

/-- `strings.Replace(s, old, new, -1)`.  `ExpandPrompt` only calls this with
`old` a full placeholder, which is nonempty. -/
def replaceAll (s old new : List Char) : List Char :=
  if old = [] then s else replaceAllF old new s.length s

/-- `ExpandPrompt` (`templates.go`): find all `\x7b\x7boutputs.X\x7d\x7d`
matches of the *original* prompt, and for each match in order, if the map
has the identifier, globally replace the placeholder text in the
accumulated result; a placeholder whose identifier is missing from the map
is skipped.  The outputs map is an association list (Go `map[string]string`
with unique keys). -/
def ExpandPrompt (prompt : String) (outputs : List (String × String)) : String :=
  ⟨(findMatches prompt.data).foldl
    (fun result id =>
      match outputs.lookup (String.mk id) with
      | some out => replaceAll result (phOf id) out.data
      | none => result)
    prompt.data⟩

/-! ## Dependency graph (`internal/planner/dag.go`)

A Go `map[string]TaskConfig` is modelled as an association list with
(in the theorems) pairwise distinct keys; the list order stands for the
map's iteration order.  The `DAG` structure keeps the key list (for `Size`
and for map iteration) and functional views of `Edges`, `ReverseEdges` and
`InDegree`.  `InDegree` is an `Int` because Go decrements it below zero in
some runs. -/

/-- Lexicographic comparison of character lists (the order `sort.Strings`
sorts by; UTF-8 byte order and code-point order agree).  Written
structurally so that concrete sorts reduce inside the kernel. -/
def charsLe : List Char → List Char → Bool
  | [], _ => true
  | _ :: _, [] => false
  | a :: as, b :: bs => if a = b then charsLe as bs else decide (a < b)

/-- The string order used by `sort.Strings`. -/
def strle (a b : String) : Prop := charsLe a.data b.data = true

instance : DecidableRel strle := fun a b =>
  inferInstanceAs (Decidable (charsLe a.data b.data = true))

theorem charsLe_total : ∀ x y : List Char, charsLe x y = true ∨ charsLe y x = true
  | [], _ => Or.inl rfl
  | _ :: _, [] => Or.inr rfl
  | a :: as, b :: bs => by
    by_cases hab : a = b
    · subst hab
      simpa [charsLe] using charsLe_total as bs
    · rcases lt_or_gt_of_ne hab with h | h
      · exact Or.inl (by simp [charsLe, hab, h])
      · exact Or.inr (by simp [charsLe, Ne.symm hab, h, not_lt_of_gt h])

theorem charsLe_trans : ∀ x y z : List Char,
    charsLe x y = true → charsLe y z = true → charsLe x z = true
  | [], _, _, _, _ => rfl
  | _ :: _, [], _, h, _ => by simp [charsLe] at h
  | _ :: _, _ :: _, [], _, h => by simp [charsLe] at h
  | a :: as, b :: bs, c :: cs, h1, h2 => by
    by_cases hab : a = b <;> by_cases hbc : b = c
    · subst hab; subst hbc
      simp only [charsLe, if_pos rfl] at h1 h2 ⊢
      exact charsLe_trans as bs cs h1 h2
    · subst hab
      simpa [charsLe, hbc] using h2
    · subst hbc
      simpa [charsLe, hab] using h1
    · simp only [charsLe, if_neg hab] at h1
      simp only [charsLe, if_neg hbc] at h2
      have hac : a < c := lt_trans (of_decide_eq_true h1) (of_decide_eq_true h2)
      simp [charsLe, ne_of_lt hac, hac]

theorem charsLe_antisymm : ∀ x y : List Char,
    charsLe x y = true → charsLe y x = true → x = y
  | [], [], _, _ => rfl
  | [], _ :: _, _, h => by simp [charsLe] at h
  | _ :: _, [], h, _ => by simp [charsLe] at h
  | a :: as, b :: bs, h1, h2 => by
    by_cases hab : a = b
    · subst hab
      simp only [charsLe, if_pos rfl] at h1 h2
      exact congrArg (a :: ·) (charsLe_antisymm as bs h1 h2)
    · simp only [charsLe, if_neg hab] at h1
      simp only [charsLe, if_neg (Ne.symm hab)] at h2
      exact absurd (of_decide_eq_true h2) (not_lt_of_gt (of_decide_eq_true h1))

instance : IsTotal String strle :=
  ⟨fun a b => charsLe_total a.data b.data⟩

instance : IsTrans String strle :=
  ⟨fun a b c => charsLe_trans a.data b.data c.data⟩

instance : IsAntisymm String strle :=
  ⟨fun a b h1 h2 => by
    have h := charsLe_antisymm a.data b.data h1 h2
    cases a; cases b; exact congrArg String.mk h⟩

/-- `config.TaskConfig` — only the fields the planner/executor read. -/
structure TaskConfig where
  agent : String
  prompt : String
  write : Bool
  needs : List String
  deriving DecidableEq, Repr

/-- The dependency graph built by `BuildDAG`. -/
structure DAG where
  /-- the keys of `Nodes` (one per task, in map-iteration order) -/
  keys : List String
  /-- `Edges[name]`: the dependencies of `name`, in declaration order -/
  edges : String → List String
  /-- `ReverseEdges[dep]`: the tasks that depend on `dep`, one entry per
  occurrence of `dep` in a `needs` list, in map-iteration order -/
  rev : String → List String
  /-- `InDegree[name]` after construction -/
  inDeg : String → Int

/-- `BuildDAG` (`dag.go`): every task starts with in-degree 0 and empty edge
lists; then for each task and each declared dependency, append
`Edges[name] += dep`, `ReverseEdges[dep] += name`, `InDegree[name]++`.
Hence `Edges[name]` is exactly `needs name`, `InDegree[name]` is
`(needs name).length`, and `ReverseEdges[d]` collects one copy of `name`
for each occurrence of `d` in `name`'s needs list.  A dependency name that
is not a task key receives reverse edges but is not a key (no `InDegree`
entry is ever iterated for it). -/
def BuildDAG (tasks : List (String × TaskConfig)) : DAG where
  keys := tasks.map Prod.fst
  edges := fun n =>
    match tasks.lookup n with
    | some c => c.needs
    | none => []
  rev := fun d =>
    tasks.foldl
      (fun acc p =>
        acc ++ p.2.needs.foldl (fun a dep => if dep = d then a ++ [p.1] else a) [])
      []
  inDeg := fun n =>
    match tasks.lookup n with
    | some c => (c.needs.length : Int)
    | none => 0

/-- The body of the `for _, dependent := range dag.ReverseEdges[current]`
loop of `TopologicalSort`: decrement the dependent's in-degree and, if it
just reached zero, append it to the newly-ready batch. -/
def decrStep (p : (String → Int) × List String) (dependent : String) :
    (String → Int) × List String :=
  let deg := fun n => if n = dependent then p.1 n - 1 else p.1 n
  if deg dependent = 0 then (deg, p.2 ++ [dependent]) else (deg, p.2)

/-- The main Kahn loop of `TopologicalSort`: pop the queue head, append it
to the result, decrement in-degrees along its reverse edges, sort the
newly-ready batch lexicographically and append it to the queue.  `fuel`
bounds the iterations; each name is enqueued at most twice in any run, so
the fuel supplied by `TopologicalSort` is never exhausted (proved below). -/
def kahnLoop (rev : String → List String) :
    Nat → List String → (String → Int) → List String → List String
  | 0, _, _, res => res
  | _ + 1, [], _, res => res
  | fuel + 1, current :: queue, deg, res =>
    let s := (rev current).foldl decrStep (deg, [])
    kahnLoop rev fuel (queue ++ List.insertionSort strle s.2) s.1 (res ++ [current])

/-- `TopologicalSort` (`dag.go`): copy the in-degrees, seed the queue with
all in-degree-0 tasks sorted lexicographically (`sort.Strings`), run the
Kahn loop, and fail with the cycle-detected error if fewer than
`dag.Size()` tasks were ordered. -/
def TopologicalSort (d : DAG) : Except String (List String) :=
  let queue0 := List.insertionSort strle (d.keys.filter (fun k => d.inDeg k = 0))
  let res := kahnLoop d.rev (d.keys.length + queue0.length + 1) queue0 d.inDeg []
  if res.length = d.keys.length then .ok res
  else .error s!"cycle detected: only processed {res.length} of {d.keys.length} tasks"

/-- The decrement sweep of one round of `BuildExecutionLevels`: for each
task assigned to the level, decrement the live in-degree of all its
dependents. -/
def levelDecr (rev : String → List String) (remaining : String → Int)
    (levelTasks : List String) : String → Int :=
  levelTasks.foldl
    (fun r t => (rev t).foldl (fun r2 dep => fun n => if n = dep then r2 n - 1 else r2 n) r)
    remaining

/-- The `for len(assigned) < dag.Size()` loop of `BuildExecutionLevels`.
Levels are returned as lists of task names; the 0-based `Level` index of
the Go struct is the list position.  `assigned` is kept as a list (the Go
set is only ever grown with fresh names, so its size is this list's
length).  One round assigns at least one task or breaks, so
`keys.length + 1` fuel is never exhausted. -/
def levelsLoop (keys : List String) (rev : String → List String) :
    Nat → (String → Int) → List String → List (List String) → List (List String)
  | 0, _, _, acc => acc
  | fuel + 1, remaining, assigned, acc =>
    if assigned.length < keys.length then
      let levelTasks := keys.filter (fun n => n ∉ assigned ∧ remaining n = 0)
      if levelTasks = [] then acc
      else
        levelsLoop keys rev fuel (levelDecr rev remaining levelTasks)
          (assigned ++ levelTasks) (acc ++ [levelTasks])
    else acc

/-- `BuildExecutionLevels` (`dag.go`): iterative peeling — at each round
collect all unassigned tasks whose remaining in-degree is zero (iterating
the node map), stop if none, otherwise emit them as the next level and
decrement their dependents' remaining in-degrees. -/
def BuildExecutionLevels (d : DAG) : List (List String) :=
  if d.keys.length = 0 then []
  else levelsLoop d.keys d.rev (d.keys.length + 1) d.inDeg [] []

/-- `MaxParallelism` (`dag.go`): size of the largest level. -/
def MaxParallelism (levels : List (List String)) : Nat :=
  levels.foldl (fun m l => if l.length > m then l.length else m) 0

/-! ## Cycle detector (`detectCycleSlice` in `internal/config/global.go`)

Three-colour DFS.  The recursive `visit` closure is embedded with an
explicit state (colour map and current path) and a fuel parameter bounding
the recursion depth; the dependency loop inside one call is a fold that
short-circuits once a cycle has been found (exactly the effect of the Go
early `return`). -/

/-- Mutable state of the DFS: node colours (0 unvisited / 1 in progress /
2 done) and the current DFS path. -/
structure DfsState where
  color : String → Nat
  path : List String

/-- The needs list the DFS follows: `tasks[name].Needs` (a missing name has
no dependencies). -/
def needsOf (tasks : List (String × TaskConfig)) (name : String) : List String :=
  match tasks.lookup name with
  | some c => c.needs
  | none => []

/-- The recursive `visit` closure of `detectCycleSlice`.  On a grey node it
reconstructs the cycle as the suffix of the current path from the repeated
node, with the repeated node appended (Go: `append(path[cycleStart:], name)`;
the `cycleStart = -1` case would panic in Go and is unreachable, since a
grey node is always on the path).  Fuel bounds the nesting depth. -/
def visitD (tasks : List (String × TaskConfig)) :
    Nat → String → DfsState → Option (List String) × DfsState
  | 0, _, st => (none, st)
  | fuel + 1, name, st =>
    if st.color name = 2 then (none, st)
    else if st.color name = 1 then
      let i := st.path.findIdx (· = name)
      (some (st.path.drop i ++ [name]), st)
    else
      let st1 : DfsState :=
        { color := fun n => if n = name then 1 else st.color n
          path := st.path ++ [name] }
      let r := (needsOf tasks name).foldl
        (fun (p : Option (List String) × DfsState) dep =>
          match p with
          | (some c, s) => (some c, s)
          | (none, s) => visitD tasks fuel dep s)
        (none, st1)
      match r with
      | (some c, s) => (some c, s)
      | (none, s) =>
        (none, { color := fun n => if n = name then 2 else s.color n
                 path := s.path.dropLast })

/-- Fuel that certainly dominates the DFS nesting depth: every nested call
grey-marks a fresh node, and only task keys and their declared dependency
names can ever be visited. -/
def dfsFuel (tasks : List (String × TaskConfig)) : Nat :=
  tasks.length + (tasks.foldl (fun n p => n + p.2.needs.length) 0) + 1

/-- `detectCycleSlice` (`global.go`): run `visit` from every still-white
task in map-iteration order, returning the first cycle found (`none` when
the dependencies are acyclic). -/
def detectCycleSlice (tasks : List (String × TaskConfig)) : Option (List String) :=
  (tasks.foldl
    (fun (p : Option (List String) × DfsState) nc =>
      match p with
      | (some c, s) => (some c, s)
      | (none, s) =>
        if s.color nc.1 = 0 then visitD tasks (dfsFuel tasks) nc.1 s else (none, s))
    (none, { color := fun _ => 0, path := [] })).1

/-! ## Executor (`internal/runtime`, executor file)

`executeTask` / `executeSequential` are pure state-passing functions here:
the mutable pieces of `Executor` state (the shared outputs map) and the
`state.Store` (whose `SaveTaskResult` / `SaveRunResult` calls we record as
an event log) are threaded explicitly.  Timestamps and UI printing are
dropped.  The `Agent` interface (`registry.Get(tool)`, `agent.Run`) is a
parameter: `Run` either fails at transport level (`Except.error`) or
returns a `Result` with stdout/stderr/exit code/success flag. -/

/-- `planner.ExecutionTask`. -/
structure ExecutionTask where
  name : String
  agentName : String
  tool : String
  model : String
  prompt : String
  write : Bool
  dependencies : List String
  deriving DecidableEq, Repr

/-- `runtime.Result` — what `agent.Run` returns on a completed external
process (possibly with non-zero exit). -/
structure AgentResult where
  stdout : String
  stderr : String
  exitCode : Int
  success : Bool
  deriving DecidableEq, Repr

/-- `state.TaskResult` without the timing fields. -/
structure TaskResult where
  taskName : String
  agent : String
  tool : String
  model : String
  prompt : String
  stdout : String
  stderr : String
  success : Bool
  exitCode : Int
  deriving DecidableEq, Repr

/-- `state.RunResult` without the timing fields. -/
structure RunResult where
  runID : String
  success : Bool
  tasks : List TaskResult
  deriving DecidableEq, Repr

/-- One persistence call on the `state.Store`. -/
inductive StoreEvent where
  | taskSaved (r : TaskResult)
  | runSaved (r : RunResult)
  deriving DecidableEq, Repr

/-- An agent adapter: `Run(ctx, task)`, with the context dropped.  The
argument is the task actually dispatched (with the expanded prompt). -/
def Agent : Type := ExecutionTask → Except String AgentResult

/-- `AgentRegistry.Get`: tool name to adapter, `none` when no adapter is
registered. -/
def AgentRegistry : Type := String → Option Agent

/-- The mutable executor state threaded through task execution: the shared
outputs map (Go `e.outputs`) and the log of store persistence calls. -/
structure ExecState where
  outputs : List (String × String)
  store : List StoreEvent

/-- Go map assignment `m[k] = v` on an association list. -/
def mapSet (m : List (String × String)) (k v : String) : List (String × String) :=
  match m with
  | [] => [(k, v)]
  | (k', v') :: rest => if k' = k then (k, v) :: rest else (k', v') :: mapSet rest k v

/-- `NewTaskResult` followed by `Complete`. -/
def mkTaskResult (t : ExecutionTask) (prompt stdout stderr : String)
    (exitCode : Int) (success : Bool) : TaskResult :=
  { taskName := t.name, agent := t.agentName, tool := t.tool, model := t.model
    prompt := prompt, stdout := stdout, stderr := stderr
    success := success, exitCode := exitCode }

/-- `executeTask` (executor): look up the adapter (failing fast with a
failed, persisted `TaskResult` when none is registered), expand the prompt
against the current outputs map, dispatch, and on a returned result —
successful or not — complete and persist the `TaskResult` and store the
captured stdout into the outputs map; a non-zero-exit result then
additionally returns an error, as does a transport-level dispatch error
(which leaves the outputs map untouched). -/
def executeTask (reg : AgentRegistry) (st : ExecState) (t : ExecutionTask) :
    TaskResult × ExecState × Option String :=
  match reg t.tool with
  | none =>
    let tr := mkTaskResult t "" "" ("no adapter for tool \"" ++ t.tool ++ "\"") 1 false
    (tr, { st with store := st.store ++ [.taskSaved tr] },
      some ("no adapter registered for tool \"" ++ t.tool ++ "\""))
  | some agent =>
    let expandedPrompt := ExpandPrompt t.prompt st.outputs
    let task : ExecutionTask := { t with prompt := expandedPrompt }
    match agent task with
    | .error e =>
      let tr := mkTaskResult t expandedPrompt "" e 1 false
      (tr, { st with store := st.store ++ [.taskSaved tr] },
        some ("task \"" ++ t.name ++ "\" failed: " ++ e))
    | .ok r =>
      let tr := mkTaskResult t expandedPrompt r.stdout r.stderr r.exitCode r.success
      let st' : ExecState :=
        { outputs := mapSet st.outputs t.name r.stdout
          store := st.store ++ [.taskSaved tr] }
      if r.success then (tr, st', none)
      else (tr, st', some ("task \"" ++ t.name ++ "\" failed with exit code " ++ toString r.exitCode))

/-- The task loop of `executeSequential`: run tasks in order, accumulating
their `TaskResult`s, stopping at the first one that returns an error. -/
def executeSeqAux (reg : AgentRegistry) (st : ExecState) :
    List ExecutionTask → List TaskResult × ExecState × Option String
  | [] => ([], st, none)
  | t :: rest =>
    match executeTask reg st t with
    | (tr, st', some e) => ([tr], st', some e)
    | (tr, st', none) =>
      let r := executeSeqAux reg st' rest
      (tr :: r.1, r.2)

/-- `executeSequential` (executor): iterate the plan's task list in order;
on the first task error, record the failed `TaskResult`, mark the run
unsuccessful, persist the partial `RunResult` and return the error;
otherwise persist the complete successful `RunResult`. -/
def executeSequential (reg : AgentRegistry) (runID : String) (st0 : ExecState)
    (tasks : List ExecutionTask) : RunResult × ExecState × Option String :=
  let r := executeSeqAux reg st0 tasks
  let rr : RunResult := { runID := runID, success := r.2.2 = none, tasks := r.1 }
  (rr, { r.2.1 with store := r.2.1.store ++ [.runSaved rr] }, r.2.2)

/-! ### Parallel mode (`executeParallel`)

Within one execution level, `executeParallel` starts one goroutine per
task, gated by a buffered-channel semaphore of capacity
`maxConcurrentFor`.  The concurrent part is embedded as a small-step
transition system over the worker states: a pending worker may start only
while fewer than the semaphore capacity are running; a running worker
finishes by appending exactly one `TaskResult` for its task to the shared
result list (under `resultsMu`), or — when the context was cancelled when
it checked — aborts without appending a result. -/

/-- Lines of `executeParallel` computing the semaphore size:
`maxConcurrent := len(level.Tasks); if e.maxParallel > 0 && maxConcurrent >
e.maxParallel { maxConcurrent = e.maxParallel }`. -/
def maxConcurrentFor (maxParallel : Nat) (levelTasks : List String) : Nat :=
  let maxConcurrent := levelTasks.length
  if maxParallel > 0 ∧ maxConcurrent > maxParallel then maxParallel else maxConcurrent

/-- Snapshot of one level's execution: which tasks have not yet acquired
the semaphore, which are inside it, and the shared results list. -/
structure LevelState where
  pending : List String
  running : List String
  results : List (String × TaskResult)

/-- The observable events of one level of `executeParallel`. -/
inductive LevelStep (cancelled : Bool) (cap : Nat) : LevelState → LevelState → Prop where
  /-- a pending worker acquires the semaphore (`sem <- struct{}{}` succeeds
  only while fewer than `cap` hold it) -/
  | start (s : LevelState) (n : String) (h : n ∈ s.pending) (hcap : s.running.length < cap) :
      LevelStep cancelled cap s
        { pending := s.pending.erase n, running := s.running ++ [n], results := s.results }
  /-- a running worker returns from `executeTask` and appends its result
  under the results mutex -/
  | finish (s : LevelState) (n : String) (r : TaskResult) (h : n ∈ s.running) :
      LevelStep cancelled cap s
        { pending := s.pending, running := s.running.erase n
          results := s.results ++ [(n, r)] }
  /-- a worker that observes `ctx.Err() != nil` before dispatching returns
  without recording any result -/
  | abort (s : LevelState) (n : String) (h : n ∈ s.running) (hc : cancelled = true) :
      LevelStep cancelled cap s
        { pending := s.pending, running := s.running.erase n, results := s.results }

/-- Initial state of a level: every task pending, nothing recorded. -/
def levelInit (levelTasks : List String) : LevelState :=
  { pending := levelTasks, running := [], results := [] }

/-- States reachable while `executeParallel` runs one level. -/
def LevelReachable (cancelled : Bool) (cap : Nat) (levelTasks : List String) :
    LevelState → Prop :=
  Relation.ReflTransGen (LevelStep cancelled cap) (levelInit levelTasks)

/-- The `wg.Wait()` barrier has been passed: every worker has returned. -/
def LevelDone (s : LevelState) : Prop := s.pending = [] ∧ s.running = []

/-! ## Specification predicates -/

/-- A string of the regex's identifier class `[a-zA-Z0-9_-]+`. -/
def IsIdent (id : List Char) : Prop := id ≠ [] ∧ ∀ c ∈ id, isIdentChar c = true

/-- `d` is a declared dependency of `n` in the task set. -/
def NeedsRel (tasks : List (String × TaskConfig)) (d n : String) : Prop :=
  d ∈ needsOf tasks n

/-- The dependency relation has no cycle: no infinite (hence, over a finite
task set, no circular) chain of dependencies. -/
def Acyclic (tasks : List (String × TaskConfig)) : Prop :=
  WellFounded (NeedsRel tasks)

/-- `a` depends on `b`, directly or transitively. -/
def DependsOn (tasks : List (String × TaskConfig)) (a b : String) : Prop :=
  Relation.TransGen (fun x y => y ∈ needsOf tasks x) a b

/-- Every element of `l` is preceded by all of its dependencies. -/
def TopoChain (needs : String → List String) (l : List String) : Prop :=
  ∀ l1 n l2, l = l1 ++ n :: l2 → ∀ d ∈ needs n, d ∈ l1

/-- Index form of a valid topological order: a task's position is strictly
after the positions of all its dependencies. -/
def IsTopoOrder (needs : String → List String) (l : List String) : Prop :=
  ∀ i j (hi : i < l.length) (hj : j < l.length),
    l.get ⟨j, hj⟩ ∈ needs (l.get ⟨i, hi⟩) → j < i

/-- The level invariant: every task of each level has all its dependencies
inside the concatenation of the strictly earlier levels (`done` collects
the levels already passed). -/
def LevelsOk (needs : String → List String) : List String → List (List String) → Prop
  | _, [] => True
  | done, L :: Ls => (∀ n ∈ L, ∀ d ∈ needs n, d ∈ done) ∧ LevelsOk needs (done ++ L) Ls

/-- The loop invariant of `TopologicalSort`'s Kahn loop: `res` is the
already-emitted order, `queue` the ready queue, `deg` the current working
in-degree map. -/
structure KahnInv (keys : List String) (needs : String → List String)
    (queue res : List String) (deg : String → Int) : Prop where
  resNodup : res.Nodup
  queueNodup : queue.Nodup
  disj : ∀ n ∈ queue, n ∉ res
  resKeys : ∀ n ∈ res, n ∈ keys
  queueKeys : ∀ n ∈ queue, n ∈ keys
  degEq : ∀ n ∈ keys,
    deg n = (((needs n).filter (fun d => decide (d ∉ res))).length : Int)
  queueZero : ∀ n ∈ queue, deg n = 0
  chain : TopoChain needs res
  complete : ∀ n ∈ keys, n ∉ res → n ∉ queue → deg n ≠ 0

/-- What holds of the Kahn loop's final result list. -/
def KahnPost (keys : List String) (needs : String → List String) (r : List String) : Prop :=
  r.Nodup ∧ (∀ n ∈ r, n ∈ keys) ∧ TopoChain needs r ∧
    (∀ n ∈ keys, n ∉ r → ∃ d ∈ needs n, d ∉ r)

/-! ## Lemmas about the template expander -/

theorem replaceAllF_fuel_eq (old new : List Char) (hold : old ≠ []) :
    ∀ fuel1 fuel2 s, s.length ≤ fuel1 → s.length ≤ fuel2 →
      replaceAllF old new fuel1 s = replaceAllF old new fuel2 s := by
  have holdlen : 1 ≤ old.length := by
    cases old with
    | nil => exact absurd rfl hold
    | cons _ _ => simp
  intro fuel1
  induction fuel1 with
  | zero =>
    intro fuel2 s hs1 _
    have : s = [] := List.length_eq_zero.mp (Nat.le_zero.mp hs1)
    subst this
    cases fuel2 <;> rfl
  | succ f ih =>
    intro fuel2 s hs1 hs2
    cases s with
    | nil => cases fuel2 <;> rfl
    | cons c rest =>
      cases fuel2 with
      | zero => simp at hs2
      | succ f2 =>
        simp only [List.length_cons] at hs1 hs2
        simp only [replaceAllF]
        cases hpre : old.isPrefixOf (c :: rest) with
        | true =>
          simp only [if_pos rfl, if_true]
          rw [List.append_right_inj]
          apply ih
          · simp only [List.length_drop, List.length_cons]; omega
          · simp only [List.length_drop, List.length_cons]; omega
        | false =>
          simp only [Bool.false_eq_true, if_false]
          rw [ih f2 rest (by omega) (by omega)]

theorem replaceAll_nil (old new : List Char) : replaceAll [] old new = [] := by
  by_cases h : old = [] <;> simp [replaceAll, h, replaceAllF]

theorem replaceAll_cons (old new : List Char) (hold : old ≠ []) (c : Char) (rest : List Char) :
    replaceAll (c :: rest) old new =
      if old.isPrefixOf (c :: rest) then
        new ++ replaceAll ((c :: rest).drop old.length) old new
      else c :: replaceAll rest old new := by
  have holdlen : 1 ≤ old.length := by
    cases old with
    | nil => exact absurd rfl hold
    | cons _ _ => simp
  simp only [replaceAll, hold, if_false, List.length_cons]
  show replaceAllF old new (rest.length + 1) (c :: rest) = _
  simp only [replaceAllF]
  cases hpre : old.isPrefixOf (c :: rest) with
  | true =>
    simp only [if_pos rfl, if_true]
    rw [List.append_right_inj]
    apply replaceAllF_fuel_eq old new hold
    · simp only [List.length_drop, List.length_cons]; omega
    · exact Nat.le_refl _
  | false =>
    simp only [Bool.false_eq_true, if_false]

theorem phOf_ne_nil (id : List Char) : phOf id ≠ [] := by
  simp [phOf]

/-- `phOf id` with its leading braces exposed. -/
theorem phOf_eq_cons (id : List Char) :
    phOf id = '{' :: '{' :: ("outputs.".data ++ (id ++ "\x7d\x7d".data)) := rfl

theorem brace_notMem_mid (id : List Char) (hid : ∀ c ∈ id, isIdentChar c = true) :
    '{' ∉ ("outputs.".data ++ (id ++ "\x7d\x7d".data)) := by
  intro hmem
  rcases List.mem_append.mp hmem with h | h
  · exact absurd h (by decide)
  · rcases List.mem_append.mp h with h' | h'
    · have := hid _ h'
      simp [isIdentChar] at this
    · exact absurd h' (by decide)

/-- No occurrence of any placeholder can begin strictly inside another
placeholder occurrence: interior suffixes of a placeholder never start with
two opening braces. -/
theorem phOf_no_interior (a b : List Char) (ha : ∀ c ∈ a, isIdentChar c = true)
    (k : Nat) (h1 : 1 ≤ k) (h2 : k < (phOf a).length) (t : List Char) :
    ¬ phOf b <+: ((phOf a).drop k ++ t) := by
  intro hp
  obtain ⟨u, hu⟩ := hp
  have hub : phOf b ++ u = '{' :: '{' :: (("outputs.".data ++ (b ++ "\x7d\x7d".data)) ++ u) := rfl
  rcases Nat.lt_or_ge k 2 with hk2 | hk2
  · -- k = 1: the suffix is `{` followed by `o`, not two braces
    have hk1 : k = 1 := by omega
    subst hk1
    have hdr : (phOf a).drop 1 ++ t =
        '{' :: 'o' :: (("utputs.".data ++ (a ++ "\x7d\x7d".data)) ++ t) := rfl
    rw [hub, hdr] at hu
    injection hu with _ hu2
    injection hu2 with hu3 _
    exact absurd hu3 (by decide)
  · -- k ≥ 2: the suffix starts inside `mid`, which contains no `{`
    obtain ⟨j, rfl⟩ : ∃ j, k = j + 2 := ⟨k - 2, by omega⟩
    have hmidlen : (phOf a).length = ("outputs.".data ++ (a ++ "\x7d\x7d".data)).length + 2 := by
      rw [phOf_eq_cons a]; simp
    have hj : j < ("outputs.".data ++ (a ++ "\x7d\x7d".data)).length := by omega
    have hdropa : (phOf a).drop (j + 2) = ("outputs.".data ++ (a ++ "\x7d\x7d".data)).drop j := rfl
    rw [hdropa] at hu
    have hne : ("outputs.".data ++ (a ++ "\x7d\x7d".data)).drop j ≠ [] := by
      rw [ne_eq, List.drop_eq_nil_iff]
      omega
    obtain ⟨d, ds, hds⟩ := List.exists_cons_of_ne_nil hne
    have hdmem : d ∈ ("outputs.".data ++ (a ++ "\x7d\x7d".data)) := by
      have : d ∈ ("outputs.".data ++ (a ++ "\x7d\x7d".data)).drop j := by
        rw [hds]; exact List.mem_cons_self d ds
      exact List.mem_of_mem_drop this
    rw [hds, hub] at hu
    have hd : ('{' : Char) = d := by
      have : ('{' :: '{' :: (("outputs.".data ++ (b ++ "\x7d\x7d".data)) ++ u)) =
          d :: (ds ++ t) := hu
      injection this with h' _
    rw [← hd] at hdmem
    exact brace_notMem_mid a ha hdmem

theorem ident_append_close_inj :
    ∀ a b : List Char, (∀ c ∈ a, isIdentChar c = true) →
      (∀ c ∈ b, isIdentChar c = true) →
      (a ++ "\x7d\x7d".data) <+: (b ++ "\x7d\x7d".data) → a = b
  | [], [], _, _, _ => rfl
  | [], d :: bs, _, hb, hp => by
    have hhd : ('}' : Char) = d := by
      obtain ⟨u, hu⟩ := hp
      injection hu
    have hd := hb d (List.mem_cons_self d bs)
    rw [← hhd] at hd
    exact absurd hd (by decide)
  | c :: as, [], ha, _, hp => by
    have hhd : c = '}' := by
      obtain ⟨u, hu⟩ := hp
      injection hu
    have hc := ha c (List.mem_cons_self c as)
    rw [hhd] at hc
    exact absurd hc (by decide)
  | c :: as, d :: bs, ha, hb, hp => by
    rw [List.cons_append, List.cons_append, List.cons_prefix_cons] at hp
    have ih := ident_append_close_inj as bs
      (fun x hx => ha x (List.mem_cons_of_mem c hx))
      (fun x hx => hb x (List.mem_cons_of_mem d hx)) hp.2
    rw [hp.1, ih]

theorem phOf_prefix_antisym (a b : List Char) (ha : ∀ c ∈ a, isIdentChar c = true)
    (hb : ∀ c ∈ b, isIdentChar c = true) (s : List Char)
    (hpa : phOf a <+: s) (hpb : phOf b <+: s) : a = b := by
  have hor := List.prefix_or_prefix_of_prefix hpa hpb
  have key : ∀ x y : List Char, (∀ c ∈ x, isIdentChar c = true) →
      (∀ c ∈ y, isIdentChar c = true) → phOf x <+: phOf y → x = y := by
    intro x y hx hy hxy
    have : "\x7b\x7boutputs.".data ++ (x ++ "\x7d\x7d".data) <+: "\x7b\x7boutputs.".data ++ (y ++ "\x7d\x7d".data) := by
      simpa [phOf, List.append_assoc] using hxy
    rw [List.prefix_append_right_inj] at this
    exact ident_append_close_inj x y hx hy this
  rcases hor with h | h
  · exact key a b ha hb h
  · exact (key b a hb ha h).symm

theorem replaceAll_append_copy (y v : List Char) :
    ∀ u t : List Char, (∀ k, k < u.length → ¬ phOf y <+: (u.drop k ++ t)) →
      replaceAll (u ++ t) (phOf y) v = u ++ replaceAll t (phOf y) v
  | [], _, _ => by simp
  | c :: u', t, h => by
    rw [List.cons_append, replaceAll_cons _ _ (phOf_ne_nil y)]
    have h0 : ¬ (phOf y).isPrefixOf (c :: (u' ++ t)) := by
      rw [List.isPrefixOf_iff_prefix]
      have := h 0 (by simp)
      simpa using this
    rw [if_neg h0, List.cons_append]
    congr 1
    exact replaceAll_append_copy y v u' t
      (fun k hk => by simpa using h (k + 1) (by simpa using Nat.succ_lt_succ hk))

/-- An occurrence of the placeholder of `x` survives a global replacement of
the (distinct) placeholder of `y`. -/
theorem replaceAll_keeps_ph (x y v : List Char) (hx : IsIdent x) (hy : IsIdent y)
    (hxy : x ≠ y) :
    ∀ n s, s.length ≤ n → phOf x <:+: s → phOf x <:+: replaceAll s (phOf y) v := by
  intro n
  induction n with
  | zero =>
    intro s hs hinf
    have : s = [] := List.length_eq_zero.mp (Nat.le_zero.mp hs)
    subst this
    obtain ⟨p, q, hpq⟩ := hinf
    exact absurd (List.append_eq_nil.mp (List.append_eq_nil.mp hpq).1).2 (phOf_ne_nil x)
  | succ n ih =>
    intro s hs hinf
    cases s with
    | nil =>
      obtain ⟨p, q, hpq⟩ := hinf
      exact absurd (List.append_eq_nil.mp (List.append_eq_nil.mp hpq).1).2 (phOf_ne_nil x)
    | cons c rest =>
      obtain ⟨a, b, hab⟩ := hinf
      by_cases hpre : (phOf y).isPrefixOf (c :: rest)
      · rw [replaceAll_cons _ _ (phOf_ne_nil y), if_pos hpre]
        cases a with
        | nil =>
          have hpx : phOf x <+: (c :: rest) := ⟨b, by simpa using hab⟩
          have hpy : phOf y <+: (c :: rest) := List.isPrefixOf_iff_prefix.mp hpre
          exact absurd (phOf_prefix_antisym x y hx.2 hy.2 _ hpx hpy) hxy
        | cons a0 a' =>
          have hab' : (a0 :: a') ++ (phOf x ++ b) = c :: rest := by
            rw [← List.append_assoc]; exact hab
          rcases Nat.lt_or_ge (a0 :: a').length (phOf y).length with hlen | hlen
          · -- the x-occurrence would begin strictly inside the y-occurrence
            exfalso
            obtain ⟨w, hw⟩ := List.isPrefixOf_iff_prefix.mp hpre
            have hd1 : (c :: rest).drop (a0 :: a').length = phOf x ++ b := by
              rw [← hab']; exact List.drop_left _ _
            have hd2 : (c :: rest).drop (a0 :: a').length =
                (phOf y).drop (a0 :: a').length ++ w := by
              rw [← hw, List.drop_append_of_le_length (Nat.le_of_lt hlen)]
            exact phOf_no_interior y x hy.2 (a0 :: a').length (by simp) hlen w
              ⟨b, by rw [← hd2, hd1]⟩
          · -- the x-occurrence lies wholly beyond the replaced y-occurrence
            have hdrop : (c :: rest).drop (phOf y).length =
                ((a0 :: a').drop (phOf y).length ++ phOf x) ++ b := by
              rw [← hab', List.drop_append_of_le_length hlen, ← List.append_assoc]
            have hinf' : phOf x <:+: (c :: rest).drop (phOf y).length :=
              ⟨(a0 :: a').drop (phOf y).length, b, hdrop.symm⟩
            have hlen' : ((c :: rest).drop (phOf y).length).length ≤ n := by
              have : (phOf y).length ≥ 1 := by
                have := phOf_ne_nil y
                cases h : phOf y with
                | nil => exact absurd h this
                | cons _ _ => simp [h]
              simp only [List.length_drop, List.length_cons]
              simp only [List.length_cons] at hs
              omega
            have := ih _ hlen' hinf'
            exact this.trans (List.suffix_append v _).isInfix
      · rw [replaceAll_cons _ _ (phOf_ne_nil y), if_neg hpre]
        cases a with
        | nil =>
          obtain ⟨w, hw⟩ : phOf x <+: (c :: rest) := ⟨b, by simpa using hab⟩
          have hcopy : replaceAll (c :: rest) (phOf y) v =
              phOf x ++ replaceAll w (phOf y) v := by
            rw [← hw]
            apply replaceAll_append_copy
            intro k hk
            rcases Nat.eq_zero_or_pos k with hk0 | hkpos
            · subst hk0
              intro hcontra
              rw [List.drop_zero, hw] at hcontra
              exact hpre (List.isPrefixOf_iff_prefix.mpr hcontra)
            · exact phOf_no_interior x y hx.2 k hkpos hk w
          rw [replaceAll_cons _ _ (phOf_ne_nil y), if_neg hpre] at hcopy
          rw [hcopy]
          exact ⟨[], replaceAll w (phOf y) v, by simp⟩
        | cons a0 a' =>
          have hab2 : a0 :: ((a' ++ phOf x) ++ b) = c :: rest := hab
          have hinf' : phOf x <:+: rest := by
            injection hab2 with h1 h2
            exact ⟨a', b, h2⟩
          have hlen' : rest.length ≤ n := by
            simp only [List.length_cons] at hs
            omega
          have := ih _ hlen' hinf'
          obtain ⟨p, q, hpq⟩ := this
          exact ⟨c :: p, q, by rw [← hpq]; simp⟩

theorem matchAt_some {s id after : List Char} (h : matchAt s = some (id, after)) :
    IsIdent id := by
  simp only [matchAt] at h
  split at h
  · split at h
    · rename_i hguard
      injection h with h'
      injection h' with h1 h2
      subst h1
      exact ⟨hguard.1, fun c hc => List.mem_takeWhile_imp hc⟩
    · exact absurd h (by simp)
  · exact absurd h (by simp)

theorem findMatchesF_ident :
    ∀ fuel s id, id ∈ findMatchesF fuel s → IsIdent id := by
  intro fuel
  induction fuel with
  | zero => intro s id h; exact absurd h (by simp [findMatchesF])
  | succ f ih =>
    intro s id h
    cases s with
    | nil => exact absurd h (by simp [findMatchesF])
    | cons c rest =>
      simp only [findMatchesF] at h
      cases hm : matchAt (c :: rest) with
      | none =>
        rw [hm] at h
        exact ih rest id h
      | some p =>
        obtain ⟨i, aft⟩ := p
        rw [hm] at h
        rcases List.mem_cons.mp h with h' | h'
        · subst h'
          exact matchAt_some hm
        · exact ih aft id h'

/-- The substitution loop of `ExpandPrompt` preserves any occurrence of a
placeholder whose identifier has no entry in the outputs map. -/
theorem expandFold_keeps_ph (outputs : List (String × String)) (x : List Char)
    (hx : IsIdent x) (hlook : outputs.lookup (String.mk x) = none) :
    ∀ (ids : List (List Char)) (s : List Char), (∀ id ∈ ids, IsIdent id) → phOf x <:+: s →
      phOf x <:+: ids.foldl
        (fun result id =>
          match outputs.lookup (String.mk id) with
          | some out => replaceAll result (phOf id) out.data
          | none => result) s := by
  intro ids
  induction ids with
  | nil => intro s _ h; exact h
  | cons i is ih =>
    intro s hids h
    simp only [List.foldl_cons]
    cases hl : outputs.lookup (String.mk i) with
    | none =>
      simp only [hl]
      exact ih s (fun id hid => hids id (List.mem_cons_of_mem i hid)) h
    | some out =>
      simp only [hl]
      have hix : x ≠ i := by
        intro hcontra
        subst hcontra
        rw [hl] at hlook
        exact absurd hlook (by simp)
      exact ih _ (fun id hid => hids id (List.mem_cons_of_mem i hid))
        (replaceAll_keeps_ph x i out.data hx (hids i (List.mem_cons_self i is)) hix
          s.length s (Nat.le_refl _) h)

/-! ## Lemmas about Kahn's algorithm (`TopologicalSort`) -/

theorem decrStep_eq (deg : String → Int) (acc : List String) (d : String) :
    decrStep (deg, acc) d = (fun n => if n = d then deg n - 1 else deg n,
      if deg d - 1 = 0 then acc ++ [d] else acc) := by
  show (if (if d = d then deg d - 1 else deg d) = 0
      then ((fun n => if n = d then deg n - 1 else deg n), acc ++ [d])
      else ((fun n => if n = d then deg n - 1 else deg n), acc)) = _
  rw [if_pos rfl]
  split <;> rfl

theorem decrFold_deg (l : List String) :
    ∀ (deg : String → Int) (acc : List String) (n : String),
      (l.foldl decrStep (deg, acc)).1 n = deg n - l.count n := by
  induction l with
  | nil => intro deg acc n; simp
  | cons d ds ih =>
    intro deg acc n
    rw [List.foldl_cons, decrStep_eq]
    rw [ih]
    by_cases hnd : n = d
    · subst hnd
      simp only [if_pos rfl, List.count_cons_self]
      push_cast
      omega
    · simp only [if_neg hnd]
      rw [List.count_cons_of_ne (by simpa using hnd)]

theorem decrFold_acc_append (l : List String) :
    ∀ (deg : String → Int) (acc : List String),
      (l.foldl decrStep (deg, acc)).2 = acc ++ (l.foldl decrStep (deg, [])).2 := by
  induction l with
  | nil => intro deg acc; simp
  | cons d ds ih =>
    intro deg acc
    rw [List.foldl_cons, decrStep_eq, List.foldl_cons, decrStep_eq]
    by_cases hz : deg d - 1 = 0
    · rw [if_pos hz, if_pos hz, ih _ (acc ++ [d]), ih _ ([] ++ [d]),
        List.nil_append, List.append_assoc]
    · rw [if_neg hz, if_neg hz, ih _ acc]

theorem decrFold_mem (l : List String) :
    ∀ (deg : String → Int) (n : String),
      n ∈ (l.foldl decrStep (deg, [])).2 ↔ (1 ≤ deg n ∧ deg n ≤ l.count n) := by
  induction l with
  | nil =>
    intro deg n
    simp only [List.foldl_nil, List.count_nil]
    constructor
    · intro h; exact absurd h (by simp)
    · intro ⟨h1, h2⟩
      exfalso
      push_cast at h2
      omega
  | cons d ds ih =>
    intro deg n
    rw [List.foldl_cons, decrStep_eq]
    by_cases hz : deg d - 1 = 0
    · rw [if_pos hz, List.nil_append, decrFold_acc_append ds _ [d], List.mem_append, ih]
      by_cases hnd : n = d
      · subst hnd
        simp only [if_pos rfl, List.mem_singleton, List.count_cons_self]
        constructor
        · intro _
          constructor
          · omega
          · push_cast
            omega
        · intro _
          simp
      · simp only [hnd, ite_false, List.mem_singleton, false_or]
        rw [List.count_cons_of_ne (by simpa using hnd)]
    · rw [if_neg hz, ih]
      by_cases hnd : n = d
      · subst hnd
        simp only [if_pos rfl, List.count_cons_self]
        push_cast
        constructor
        · intro ⟨h1, h2⟩; constructor <;> omega
        · intro ⟨h1, h2⟩; constructor <;> omega
      · simp only [hnd, ite_false]
        rw [List.count_cons_of_ne (by simpa using hnd)]

theorem decrFold_nodup (l : List String) :
    ∀ deg : String → Int, (l.foldl decrStep (deg, [])).2.Nodup := by
  induction l with
  | nil => intro deg; simp
  | cons d ds ih =>
    intro deg
    rw [List.foldl_cons, decrStep_eq]
    by_cases hz : deg d - 1 = 0
    · rw [if_pos hz, List.nil_append, decrFold_acc_append ds _ [d]]
      refine List.Nodup.append (by simp) (ih _) ?_
      intro x hx1 hx2
      rw [List.mem_singleton] at hx1
      subst hx1
      rw [decrFold_mem] at hx2
      have h1 := hx2.1
      rw [if_pos rfl, hz] at h1
      omega
    · rw [if_neg hz]
      exact ih _

theorem decrFold_mem_src (l : List String) (deg : String → Int) (n : String)
    (h : n ∈ (l.foldl decrStep (deg, [])).2) : n ∈ l := by
  rw [decrFold_mem] at h
  have h2 : (1 : Int) ≤ l.count n := le_trans h.1 h.2
  have : 0 < l.count n := by exact_mod_cast lt_of_lt_of_le zero_lt_one h2
  exact List.count_pos_iff.mp this

theorem filter_notMem_append_count (l res : List String) (c : String) (hc : c ∉ res) :
    (l.filter (fun d => decide (d ∉ res))).length =
      (l.filter (fun d => decide (d ∉ res ++ [c]))).length + l.count c := by
  induction l with
  | nil => simp
  | cons x xs ih =>
    rw [List.filter_cons, List.filter_cons]
    by_cases hxr : x ∈ res
    · have hxc : c ≠ x := fun h => hc (h ▸ hxr)
      have e1 : decide (x ∉ res) = false := by simp [hxr]
      have e2 : decide (x ∉ res ++ [c]) = false := by simp [List.mem_append, hxr]
      rw [e1, e2]
      simp only [Bool.false_eq_true, if_false]
      rw [List.count_cons_of_ne hxc]
      exact ih
    · by_cases hxc : x = c
      · subst hxc
        have e1 : decide (x ∉ res) = true := by simp [hxr]
        have e2 : decide (x ∉ res ++ [x]) = false := by simp
        rw [e1, e2]
        simp only [if_true, Bool.false_eq_true, if_false, List.length_cons]
        rw [List.count_cons_self]
        omega
      · have e1 : decide (x ∉ res) = true := by simp [hxr]
        have e2 : decide (x ∉ res ++ [c]) = true := by
          simp [List.mem_append, hxr, hxc]
        rw [e1, e2]
        simp only [if_true, List.length_cons]
        rw [List.count_cons_of_ne (fun h => hxc h.symm)]
        omega

theorem length_filter_compl (l : List String) (p : String → Bool) :
    (l.filter p).length + (l.filter (fun a => !(p a))).length = l.length := by
  induction l with
  | nil => simp
  | cons x xs ih =>
    rw [List.filter_cons, List.filter_cons]
    cases hp : p x <;> simp [hp] <;> omega

theorem topoChain_closed {needs : String → List String} {l : List String}
    (h : TopoChain needs l) {n : String} (hn : n ∈ l) : ∀ d ∈ needs n, d ∈ l := by
  obtain ⟨s, t, hst⟩ := List.append_of_mem hn
  intro d hd
  have := h s n t hst d hd
  rw [hst]
  exact List.mem_append_left _ this

theorem topoChain_append {needs : String → List String} {l : List String} {c : String}
    (h : TopoChain needs l) (hc : ∀ d ∈ needs c, d ∈ l) :
    TopoChain needs (l ++ [c]) := by
  intro l1 n l2 heq d hd
  rcases List.append_eq_append_iff.mp heq with ⟨a', ha1, ha2⟩ | ⟨c', hc1, hc2⟩
  · -- l1 = l ++ a', [c] = a' ++ n :: l2 : forces a' = [], n = c
    cases a' with
    | nil =>
      simp only [List.nil_append] at ha2
      injection ha2 with hn hl2
      subst hn
      rw [ha1, List.append_nil]
      exact hc d hd
    | cons a0 a'' =>
      have := congrArg List.length ha2
      simp at this
  · -- l = l1 ++ c', n :: l2 = c' ++ [c]
    cases c' with
    | nil =>
      simp only [List.nil_append] at hc2
      injection hc2 with hn hl2
      subst hn
      rw [List.append_nil] at hc1
      rw [← hc1]
      exact hc d hd
    | cons c0 c'' =>
      injection hc2 with hn hrest
      subst hn
      exact h l1 n c'' hc1 d hd

theorem kahnLoop_cons (rev : String → List String) (f : Nat)
    (current : String) (qtail res : List String) (deg : String → Int) :
    kahnLoop rev (f + 1) (current :: qtail) deg res =
      kahnLoop rev f
        (qtail ++ List.insertionSort strle ((rev current).foldl decrStep (deg, [])).2)
        ((rev current).foldl decrStep (deg, [])).1 (res ++ [current]) := rfl

theorem measure_decrease (keys res qtail nw snw : List String) (current : String)
    (hknd : keys.Nodup) (hnwnd : nw.Nodup)
    (hnw_sub : ∀ x ∈ nw, x ∈ keys ∧ x ∉ res ∧ x ∉ (current :: qtail))
    (hsp : List.Perm snw nw) :
    (keys.filter (fun k => decide (k ∉ res ++ [current]) &&
        decide (k ∉ qtail ++ snw))).length + nw.length =
      (keys.filter (fun k => decide (k ∉ res) && decide (k ∉ current :: qtail))).length := by
  have hpt : ∀ k ∈ keys,
      (decide (k ∉ res ++ [current]) && decide (k ∉ qtail ++ snw)) =
        ((decide (k ∉ res) && decide (k ∉ current :: qtail)) && decide (k ∉ nw)) := by
    intro k _
    by_cases h1 : k ∈ res <;> by_cases h2 : k = current <;> by_cases h3 : k ∈ qtail <;>
      by_cases h4 : k ∈ nw <;>
        simp [List.mem_append, List.mem_cons, h1, h2, h3, h4, hsp.mem_iff]
  rw [List.filter_congr hpt]
  rw [show (fun k => (decide (k ∉ res) && decide (k ∉ current :: qtail)) && decide (k ∉ nw)) =
      (fun k => decide (k ∉ nw) && (decide (k ∉ res) && decide (k ∉ current :: qtail)))
      from by funext k; rw [Bool.and_comm]]
  rw [← List.filter_filter]
  have hFnd : (keys.filter (fun k => decide (k ∉ res) &&
      decide (k ∉ current :: qtail))).Nodup := hknd.filter _
  have hcompl := length_filter_compl
    (keys.filter (fun k => decide (k ∉ res) && decide (k ∉ current :: qtail)))
    (fun k => decide (k ∈ nw))
  have hin : ((keys.filter (fun k => decide (k ∉ res) && decide (k ∉ current :: qtail))).filter
      (fun k => decide (k ∈ nw))).length = nw.length := by
    have hperm : ((keys.filter (fun k => decide (k ∉ res) &&
        decide (k ∉ current :: qtail))).filter (fun k => decide (k ∈ nw))).Perm nw := by
      rw [List.perm_ext_iff_of_nodup (hFnd.filter _) hnwnd]
      intro a
      simp only [List.mem_filter, decide_eq_true_eq]
      constructor
      · intro h
        exact h.2
      · intro h
        obtain ⟨hk, hr, hq⟩ := hnw_sub a h
        exact ⟨⟨hk, by simp [hr, hq]⟩, h⟩
    exact hperm.length_eq
  have hnoteq : (fun k => decide (k ∉ nw)) = (fun k => !(decide (k ∈ nw))) := by
    funext k
    simp [decide_not]
  rw [hnoteq]
  omega

/-- Main invariant argument for the Kahn loop: starting from any state
satisfying the invariant with enough fuel, the loop ends in a state
satisfying `KahnPost`. -/
theorem kahnLoop_post (keys : List String) (needs rev : String → List String)
    (hknd : keys.Nodup)
    (hcnt : ∀ c n, (rev c).count n = (needs n).count c)
    (hrk : ∀ c n, n ∈ rev c → n ∈ keys) :
    ∀ (fuel : Nat) (queue res : List String) (deg : String → Int),
      KahnInv keys needs queue res deg →
      (keys.filter (fun k => decide (k ∉ res) && decide (k ∉ queue))).length
        + queue.length < fuel →
      KahnPost keys needs (kahnLoop rev fuel queue deg res) := by
  intro fuel
  induction fuel with
  | zero =>
    intro queue res deg _ hfuel
    exact absurd hfuel (Nat.not_lt_zero _)
  | succ f ih =>
    intro queue res deg hinv hfuel
    cases queue with
    | nil =>
      show KahnPost keys needs res
      refine ⟨hinv.resNodup, hinv.resKeys, hinv.chain, ?_⟩
      intro n hk hnr
      have hdeg := hinv.complete n hk hnr (by simp)
      have he := hinv.degEq n hk
      have hpos : ((needs n).filter (fun d => decide (d ∉ res))).length ≠ 0 := by
        intro h0
        rw [he, h0] at hdeg
        exact hdeg rfl
      have hne : (needs n).filter (fun d => decide (d ∉ res)) ≠ [] := by
        intro h0
        rw [h0] at hpos
        exact hpos rfl
      obtain ⟨d, hd⟩ := List.exists_mem_of_ne_nil _ hne
      have := List.mem_filter.mp hd
      exact ⟨d, this.1, by simpa using this.2⟩
    | cons current qtail =>
      rw [kahnLoop_cons]
      -- abbreviations for the new state
      have hcur_key : current ∈ keys := hinv.queueKeys current (List.mem_cons_self _ _)
      have hcur_notres : current ∉ res := hinv.disj current (List.mem_cons_self _ _)
      have hcur_deg : deg current = 0 := hinv.queueZero current (List.mem_cons_self _ _)
      have hcur_nottail : current ∉ qtail := (List.nodup_cons.mp hinv.queueNodup).1
      have hqtail_nodup : qtail.Nodup := (List.nodup_cons.mp hinv.queueNodup).2
      have hzero_needs : ∀ n, n ∈ keys → deg n = 0 → ∀ d ∈ needs n, d ∈ res := by
        intro n hk h0 d hd
        have he := hinv.degEq n hk
        rw [h0] at he
        have hlen : ((needs n).filter (fun d => decide (d ∉ res))).length = 0 := by
          exact_mod_cast he.symm
        have hnil := List.length_eq_zero.mp hlen
        by_contra hdr
        have hmem : d ∈ (needs n).filter (fun d => decide (d ∉ res)) :=
          List.mem_filter.mpr ⟨hd, by simpa using hdr⟩
        rw [hnil] at hmem
        exact absurd hmem (by simp)
      have hres_zero : ∀ n ∈ res, deg n = 0 := by
        intro n hn
        have hcl := topoChain_closed hinv.chain hn
        have hfe : (needs n).filter (fun d => decide (d ∉ res)) = [] := by
          rw [List.filter_eq_nil_iff]
          intro a ha
          simpa using hcl a ha
        rw [hinv.degEq n (hinv.resKeys n hn), hfe]
        rfl
      have hdg := decrFold_deg (rev current) deg []
      have hmemnw := decrFold_mem (rev current) deg
      have hnw_nodup := decrFold_nodup (rev current) deg
      have hnw_keys : ∀ n ∈ ((rev current).foldl decrStep (deg, [])).2, n ∈ keys :=
        fun n h => hrk current n (decrFold_mem_src _ _ _ h)
      have hcnt_le : ∀ n ∈ keys,
          ((needs n).count current : Int) ≤ deg n := by
        intro n hk
        rw [hinv.degEq n hk]
        have h1 : (needs n).count current =
            ((needs n).filter (fun d => decide (d ∉ res))).count current := by
          rw [List.count_filter (by simpa using hcur_notres)]
        rw [h1]
        exact_mod_cast List.count_le_length _ _
      have hdeg_nonneg : ∀ n ∈ keys, 0 ≤ deg n := by
        intro n hk
        rw [hinv.degEq n hk]
        positivity
      have hnw_notres : ∀ n ∈ ((rev current).foldl decrStep (deg, [])).2, n ∉ res := by
        intro n hn hr
        have h1 := (hmemnw n).mp hn
        rw [hres_zero n hr] at h1
        exact absurd h1.1 (by omega)
      have hnw_notqueue : ∀ n ∈ ((rev current).foldl decrStep (deg, [])).2,
          n ∉ (current :: qtail) := by
        intro n hn hq
        have h1 := (hmemnw n).mp hn
        rw [hinv.queueZero n hq] at h1
        exact absurd h1.1 (by omega)
      have hsnw_perm : List.Perm
          (List.insertionSort strle ((rev current).foldl decrStep (deg, [])).2)
          ((rev current).foldl decrStep (deg, [])).2 :=
        List.perm_insertionSort _ _
      have hsnw_nodup := hsnw_perm.nodup_iff.mpr hnw_nodup
      -- the new invariant
      have hinv' : KahnInv keys needs
          (qtail ++ List.insertionSort strle ((rev current).foldl decrStep (deg, [])).2)
          (res ++ [current]) ((rev current).foldl decrStep (deg, [])).1 := by
        refine ⟨?_, ?_, ?_, ?_, ?_, ?_, ?_, ?_, ?_⟩
        · -- resNodup
          refine List.Nodup.append hinv.resNodup (by simp) ?_
          intro x hx1 hx2
          rw [List.mem_singleton] at hx2
          subst hx2
          exact hcur_notres hx1
        · -- queueNodup
          refine List.Nodup.append hqtail_nodup hsnw_nodup ?_
          intro x hx1 hx2
          rw [hsnw_perm.mem_iff] at hx2
          have h1 := (hmemnw x).mp hx2
          rw [hinv.queueZero x (List.mem_cons_of_mem _ hx1)] at h1
          exact absurd h1.1 (by omega)
        · -- disj
          intro n hn
          rcases List.mem_append.mp hn with h | h
          · have hne : n ≠ current := fun he => hcur_nottail (he ▸ h)
            have hnr := hinv.disj n (List.mem_cons_of_mem _ h)
            simp [List.mem_append, hnr, hne]
          · rw [hsnw_perm.mem_iff] at h
            have h1 := (hmemnw n).mp h
            have hnr := hnw_notres n h
            have hne : n ≠ current := by
              intro he
              rw [he, hcur_deg] at h1
              exact absurd h1.1 (by omega)
            simp [List.mem_append, hnr, hne]
        · -- resKeys
          intro n hn
          rcases List.mem_append.mp hn with h | h
          · exact hinv.resKeys n h
          · rw [List.mem_singleton] at h
            subst h
            exact hcur_key
        · -- queueKeys
          intro n hn
          rcases List.mem_append.mp hn with h | h
          · exact hinv.queueKeys n (List.mem_cons_of_mem _ h)
          · rw [hsnw_perm.mem_iff] at h
            exact hnw_keys n h
        · -- degEq
          intro n hk
          rw [hdg n]
          have e1 := hinv.degEq n hk
          have e2 := hcnt current n
          have e3 := filter_notMem_append_count (needs n) res current hcur_notres
          rw [e1]
          omega
        · -- queueZero
          intro n hn
          rw [hdg n]
          rcases List.mem_append.mp hn with h | h
          · have h0 := hinv.queueZero n (List.mem_cons_of_mem _ h)
            have hneeds := hzero_needs n (hinv.queueKeys n (List.mem_cons_of_mem _ h)) h0
            have hcnt0 : (needs n).count current = 0 := by
              rw [List.count_eq_zero]
              intro hc
              exact hcur_notres (hneeds current hc)
            rw [h0, hcnt current n, hcnt0]
            rfl
          · rw [hsnw_perm.mem_iff] at h
            have h1 := (hmemnw n).mp h
            have h2 := hcnt_le n (hnw_keys n h)
            rw [hcnt current n] at h1
            rw [hcnt current n]
            omega
        · -- chain
          exact topoChain_append hinv.chain (hzero_needs current hcur_key hcur_deg)
        · -- complete
          intro n hk hnr hnq
          rw [hdg n]
          have hnres : n ∉ res := fun h => hnr (List.mem_append_left _ h)
          have hncur : n ≠ current := by
            intro he
            exact hnr (List.mem_append_right _ (by simp [he]))
          have hnqt : n ∉ qtail := fun h => hnq (List.mem_append_left _ h)
          have hnsnw : n ∉ ((rev current).foldl decrStep (deg, [])).2 := by
            intro h
            exact hnq (List.mem_append_right _ (hsnw_perm.mem_iff.mpr h))
          by_cases h0 : deg n = 0
          · have := hinv.complete n hk hnres (by simp [hncur, hnqt])
            exact absurd h0 this
          · intro hz
            have hge : 1 ≤ deg n := by
              have := hdeg_nonneg n hk
              omega
            have hle : deg n ≤ ((rev current).count n : Int) := by omega
            exact hnsnw ((hmemnw n).mpr ⟨hge, hle⟩)
      -- measure
      have hnw_sub : ∀ x ∈ ((rev current).foldl decrStep (deg, [])).2,
          x ∈ keys ∧ x ∉ res ∧ x ∉ (current :: qtail) :=
        fun x hx => ⟨hnw_keys x hx, hnw_notres x hx, hnw_notqueue x hx⟩
      have hmd := measure_decrease keys res qtail
        ((rev current).foldl decrStep (deg, [])).2
        (List.insertionSort strle ((rev current).foldl decrStep (deg, [])).2)
        current hknd hnw_nodup hnw_sub hsnw_perm
      apply ih _ _ _ hinv'
      have hlen1 : (List.insertionSort strle
          ((rev current).foldl decrStep (deg, [])).2).length =
          ((rev current).foldl decrStep (deg, [])).2.length := hsnw_perm.length_eq
      simp only [List.length_append, List.length_cons] at hfuel ⊢
      omega

/-! ## `BuildDAG` facts -/

theorem lookup_cons_self {β : Type} (k : String) (v : β) (rest : List (String × β)) :
    ((k, v) :: rest).lookup k = some v := by
  simp [List.lookup]

theorem lookup_cons_ne {β : Type} (a k : String) (v : β) (rest : List (String × β))
    (h : a ≠ k) : ((a, v) :: rest).lookup k = rest.lookup k := by
  rw [List.lookup]
  rw [show (k == a) = false from beq_eq_false_iff_ne.mpr (fun he => h he.symm)]

theorem needsOf_nil (n : String) : needsOf [] n = [] := by
  simp [needsOf, List.lookup]

theorem needsOf_cons_self (k : String) (cfg : TaskConfig)
    (rest : List (String × TaskConfig)) :
    needsOf ((k, cfg) :: rest) k = cfg.needs := by
  unfold needsOf
  rw [lookup_cons_self]

theorem needsOf_cons_ne (a k : String) (cfg : TaskConfig)
    (rest : List (String × TaskConfig)) (h : a ≠ k) :
    needsOf ((a, cfg) :: rest) k = needsOf rest k := by
  unfold needsOf
  rw [lookup_cons_ne a k cfg rest h]

theorem lookup_mem {β : Type} :
    ∀ (l : List (String × β)) (a : String) (b : β), l.lookup a = some b → (a, b) ∈ l := by
  intro l
  induction l with
  | nil => intro a b h; exact absurd h (by simp [List.lookup])
  | cons p rest ih =>
    intro a b h
    obtain ⟨k, v⟩ := p
    rw [List.lookup] at h
    by_cases hk : a = k
    · subst hk
      simp only [beq_self_eq_true] at h
      injection h with h'
      subst h'
      exact List.mem_cons_self _ _
    · rw [show (a == k) = false from beq_eq_false_iff_ne.mpr hk] at h
      exact List.mem_cons_of_mem _ (ih a b h)

theorem lookup_eq_none_iff {β : Type} :
    ∀ (l : List (String × β)) (a : String), l.lookup a = none ↔ a ∉ l.map Prod.fst := by
  intro l
  induction l with
  | nil => intro a; simp [List.lookup]
  | cons p rest ih =>
    intro a
    obtain ⟨k, v⟩ := p
    rw [List.lookup]
    by_cases hk : a = k
    · subst hk
      simp
    · rw [show (a == k) = false from beq_eq_false_iff_ne.mpr hk]
      simp [ih, hk]

theorem lookup_eq_some_of_mem {β : Type} :
    ∀ (l : List (String × β)), (l.map Prod.fst).Nodup → ∀ (a : String) (b : β),
      (a, b) ∈ l → l.lookup a = some b := by
  intro l
  induction l with
  | nil => intro _ a b h; exact absurd h (by simp)
  | cons p rest ih =>
    intro hnd a b h
    obtain ⟨k, v⟩ := p
    rw [List.lookup]
    rcases List.mem_cons.mp h with h' | h'
    · injection h' with h1 h2
      subst h1; subst h2
      simp
    · have hnd2 : (k :: rest.map Prod.fst).Nodup := by simpa using hnd
      have hak : a ≠ k := by
        intro he
        subst he
        have h1 : a ∈ rest.map Prod.fst := List.mem_map.mpr ⟨(a, b), h', rfl⟩
        exact (List.nodup_cons.mp hnd2).1 h1
      rw [show (a == k) = false from beq_eq_false_iff_ne.mpr hak]
      exact ih (List.nodup_cons.mp hnd2).2 a b h'

theorem buildDAG_keys (tasks : List (String × TaskConfig)) :
    (BuildDAG tasks).keys = tasks.map Prod.fst := rfl

theorem buildDAG_edges (tasks : List (String × TaskConfig)) :
    (BuildDAG tasks).edges = needsOf tasks := rfl

theorem buildDAG_inDeg (tasks : List (String × TaskConfig)) (n : String) :
    (BuildDAG tasks).inDeg n = ((needsOf tasks n).length : Int) := by
  show (match tasks.lookup n with
    | some c => (c.needs.length : Int)
    | none => 0) = _
  unfold needsOf
  cases tasks.lookup n <;> simp

theorem needsOf_nonkey (tasks : List (String × TaskConfig)) (n : String)
    (h : n ∉ tasks.map Prod.fst) : needsOf tasks n = [] := by
  unfold needsOf
  rw [(lookup_eq_none_iff tasks n).mpr h]

/-- A single task's contribution to `ReverseEdges[d]`: one copy of the task
name per occurrence of `d` in its needs list. -/
theorem revBlock_eq (d m : String) :
    ∀ (l : List String) (acc : List String),
      l.foldl (fun a dep => if dep = d then a ++ [m] else a) acc =
        acc ++ List.replicate (l.count d) m := by
  intro l
  induction l with
  | nil => intro acc; simp
  | cons x xs ih =>
    intro acc
    rw [List.foldl_cons]
    by_cases hx : x = d
    · subst hx
      rw [if_pos rfl, ih, List.count_cons_self, List.replicate_succ']
      simp only [List.append_assoc, List.singleton_append]
      rw [← List.replicate_succ, List.replicate_succ']
    · rw [if_neg hx, ih, List.count_cons_of_ne (fun h => hx h.symm)]

theorem revFold_acc {β : Type} (g : β → List String) :
    ∀ (ts : List β) (a : List String),
      ts.foldl (fun acc p => acc ++ g p) a = a ++ ts.foldl (fun acc p => acc ++ g p) [] := by
  intro ts
  induction ts with
  | nil => intro a; simp
  | cons p ps ih =>
    intro a
    rw [List.foldl_cons, List.foldl_cons, ih, ih (([] : List String) ++ g p)]
    simp

theorem buildDAG_rev_count (tasks : List (String × TaskConfig))
    (hnd : (tasks.map Prod.fst).Nodup) (c n : String) :
    ((BuildDAG tasks).rev c).count n = (needsOf tasks n).count c := by
  show (tasks.foldl (fun acc p =>
      acc ++ p.2.needs.foldl (fun a dep => if dep = c then a ++ [p.1] else a) []) []).count n
      = (needsOf tasks n).count c
  induction tasks with
  | nil => simp [needsOf_nil]
  | cons p rest ih =>
    obtain ⟨m, cfg⟩ := p
    have hnd2 : (m :: rest.map Prod.fst).Nodup := by simpa using hnd
    have hnd' : (rest.map Prod.fst).Nodup := (List.nodup_cons.mp hnd2).2
    have hm_notin : m ∉ rest.map Prod.fst := (List.nodup_cons.mp hnd2).1
    rw [List.foldl_cons, revFold_acc, List.count_append]
    rw [List.nil_append, revBlock_eq]
    rw [List.nil_append, List.count_replicate]
    dsimp only
    by_cases hb : n = m
    · subst hb
      rw [needsOf_cons_self]
      rw [if_pos (by simp)]
      have hr0 : (rest.foldl (fun acc p =>
          acc ++ p.2.needs.foldl (fun a dep => if dep = c then a ++ [p.1] else a) []) []).count n
          = 0 := by
        rw [ih hnd']
        rw [show needsOf rest n = [] from needsOf_nonkey rest n hm_notin]
        simp
      omega
    · rw [needsOf_cons_ne m n cfg rest (fun h => hb h.symm)]
      rw [if_neg (by simpa using fun h => hb h.symm)]
      have := ih hnd'
      omega

theorem buildDAG_rev_keys (tasks : List (String × TaskConfig))
    (hnd : (tasks.map Prod.fst).Nodup) (c n : String)
    (h : n ∈ (BuildDAG tasks).rev c) : n ∈ tasks.map Prod.fst := by
  have hcount : 0 < ((BuildDAG tasks).rev c).count n := List.count_pos_iff.mpr h
  rw [buildDAG_rev_count tasks hnd] at hcount
  by_contra hnk
  rw [needsOf_nonkey tasks n hnk] at hcount
  simp at hcount

/-- The Kahn loop run that `TopologicalSort` performs. -/
def topoRun (d : DAG) : List String :=
  kahnLoop d.rev
    (d.keys.length +
      (List.insertionSort strle (d.keys.filter (fun k => d.inDeg k = 0))).length + 1)
    (List.insertionSort strle (d.keys.filter (fun k => d.inDeg k = 0))) d.inDeg []

theorem topologicalSort_eq (d : DAG) :
    TopologicalSort d =
      if (topoRun d).length = d.keys.length then .ok (topoRun d)
      else .error s!"cycle detected: only processed {(topoRun d).length} of {d.keys.length} tasks" := rfl

theorem topoChain_nil (needs : String → List String) : TopoChain needs [] := by
  intro l1 n l2 h
  exact absurd h.symm (by simp)

/-- The Kahn loop of `TopologicalSort (BuildDAG tasks)` ends in a
`KahnPost` state. -/
theorem topoRun_post (tasks : List (String × TaskConfig))
    (hnd : (tasks.map Prod.fst).Nodup) :
    KahnPost (tasks.map Prod.fst) (needsOf tasks) (topoRun (BuildDAG tasks)) := by
  have hperm0 := List.perm_insertionSort strle
    ((BuildDAG tasks).keys.filter (fun k => (BuildDAG tasks).inDeg k = 0))
  apply kahnLoop_post (tasks.map Prod.fst) (needsOf tasks) (BuildDAG tasks).rev hnd
    (buildDAG_rev_count tasks hnd) (buildDAG_rev_keys tasks hnd)
  · -- initial invariant
    refine ⟨List.nodup_nil, ?_, by simp, by simp, ?_, ?_, ?_, topoChain_nil _, ?_⟩
    · exact hperm0.nodup_iff.mpr (hnd.filter _)
    · intro n hn
      rw [hperm0.mem_iff] at hn
      exact (List.mem_filter.mp hn).1
    · intro n hk
      rw [buildDAG_inDeg]
      simp
    · intro n hn
      rw [hperm0.mem_iff] at hn
      have := (List.mem_filter.mp hn).2
      simpa using this
    · intro n hk _ hq h0
      apply hq
      rw [hperm0.mem_iff]
      exact List.mem_filter.mpr ⟨hk, by simpa using h0⟩
  · -- fuel bound
    have h1 := List.length_filter_le
      (fun k => decide (k ∉ ([] : List String)) &&
        decide (k ∉ List.insertionSort strle
          ((BuildDAG tasks).keys.filter (fun k => (BuildDAG tasks).inDeg k = 0))))
      (tasks.map Prod.fst)
    have hkeys : (BuildDAG tasks).keys = tasks.map Prod.fst := rfl
    rw [hkeys] at h1 ⊢
    omega

theorem needsOf_sub_keys (tasks : List (String × TaskConfig))
    (hdeps : ∀ p ∈ tasks, ∀ d ∈ p.2.needs, d ∈ tasks.map Prod.fst) :
    ∀ n, ∀ d ∈ needsOf tasks n, d ∈ tasks.map Prod.fst := by
  intro n d hd
  cases hl : tasks.lookup n with
  | none =>
    have he : needsOf tasks n = [] := by unfold needsOf; rw [hl]
    rw [he] at hd
    exact absurd hd (by simp)
  | some cfg =>
    have he : needsOf tasks n = cfg.needs := by unfold needsOf; rw [hl]
    rw [he] at hd
    exact hdeps (n, cfg) (lookup_mem tasks n cfg hl) d hd

theorem needsOf_mem_keys (tasks : List (String × TaskConfig)) (n d : String)
    (hd : d ∈ needsOf tasks n) : n ∈ tasks.map Prod.fst := by
  by_contra hn
  rw [needsOf_nonkey tasks n hn] at hd
  exact absurd hd (by simp)

/-- Under acyclicity (and with all dependencies declared), the Kahn loop
orders every task. -/
theorem kahnPost_covers (tasks : List (String × TaskConfig)) (R : List String)
    (hpost : KahnPost (tasks.map Prod.fst) (needsOf tasks) R)
    (hdeps : ∀ n, ∀ d ∈ needsOf tasks n, d ∈ tasks.map Prod.fst)
    (hacyc : Acyclic tasks) :
    ∀ k ∈ tasks.map Prod.fst, k ∈ R := by
  by_contra hcon
  push_neg at hcon
  obtain ⟨k0, hk0, hk0r⟩ := hcon
  obtain ⟨u, hu, humin⟩ := hacyc.has_min
    {k | k ∈ tasks.map Prod.fst ∧ k ∉ R} ⟨k0, hk0, hk0r⟩
  obtain ⟨d, hd, hdr⟩ := hpost.2.2.2 u hu.1 hu.2
  exact humin d ⟨hdeps u d hd, hdr⟩ hd

theorem kahnPost_perm (tasks : List (String × TaskConfig)) (R : List String)
    (hnd : (tasks.map Prod.fst).Nodup)
    (hpost : KahnPost (tasks.map Prod.fst) (needsOf tasks) R)
    (hcov : ∀ k ∈ tasks.map Prod.fst, k ∈ R) :
    List.Perm R (tasks.map Prod.fst) := by
  rw [List.perm_ext_iff_of_nodup hpost.1 hnd]
  exact fun a => ⟨fun h => hpost.2.1 a h, fun h => hcov a h⟩

theorem topoChain_isTopoOrder (needs : String → List String) (l : List String)
    (hnd : l.Nodup) (hc : TopoChain needs l) : IsTopoOrder needs l := by
  intro i j hi hj hmem
  have hsplit : l = l.take i ++ l.get ⟨i, hi⟩ :: l.drop (i + 1) := by
    conv_lhs => rw [← List.take_append_drop i l]
    rw [List.drop_eq_getElem_cons hi]
    rfl
  have hd := hc (l.take i) (l.get ⟨i, hi⟩) (l.drop (i + 1)) hsplit (l.get ⟨j, hj⟩) hmem
  obtain ⟨k, hk, hkeq⟩ := List.mem_iff_getElem.mp hd
  have hki : k < i := by
    have := hk
    rw [List.length_take] at this
    omega
  have hkl : k < l.length := by omega
  have heq2 : l.get ⟨k, hkl⟩ = l.get ⟨j, hj⟩ := by
    rw [← hkeq]
    show l.get ⟨k, hkl⟩ = (l.take i).get ⟨k, hk⟩
    simp [List.getElem_take]
  have hinj := List.nodup_iff_injective_get.mp hnd heq2
  have : k = j := by
    have := congrArg Fin.val hinj
    simpa using this
  omega

theorem topoOrder_acyclic (tasks : List (String × TaskConfig)) (R : List String)
    (hpost : KahnPost (tasks.map Prod.fst) (needsOf tasks) R)
    (hlen : R.length = (tasks.map Prod.fst).length) : Acyclic tasks := by
  have hsub : R.Subperm (tasks.map Prod.fst) :=
    List.Nodup.subperm hpost.1 (fun a ha => hpost.2.1 a ha)
  have hperm : List.Perm R (tasks.map Prod.fst) :=
    hsub.perm_of_length_le (by omega)
  have hrank : ∀ d n, NeedsRel tasks d n → R.indexOf d < R.indexOf n := by
    intro d n hdn
    have hd : d ∈ needsOf tasks n := hdn
    have hnk : n ∈ tasks.map Prod.fst := needsOf_mem_keys tasks n d hd
    have hnR : n ∈ R := hperm.mem_iff.mpr hnk
    obtain ⟨l1, l2, hsp⟩ := List.append_of_mem hnR
    have hdl1 : d ∈ l1 := hpost.2.2.1 l1 n l2 hsp d hd
    have hnd2 : (l1 ++ n :: l2).Nodup := hsp ▸ hpost.1
    have hnotl1 : n ∉ l1 := by
      rw [List.nodup_append] at hnd2
      intro hmem
      exact hnd2.2.2 hmem (List.mem_cons_self _ _)
    rw [hsp, List.indexOf_append_of_mem hdl1, List.indexOf_append_of_not_mem hnotl1,
      List.indexOf_cons_self]
    have := List.indexOf_lt_length.mpr hdl1
    omega
  have hwf : WellFounded (fun a b : String => R.indexOf a < R.indexOf b) :=
    InvImage.wf (fun s => R.indexOf s) (Nat.lt_wfRel.wf)
  exact Subrelation.wf (fun {x y} h => hrank x y h) hwf

theorem topoRun_dangling (tasks : List (String × TaskConfig))
    (hnd : (tasks.map Prod.fst).Nodup) (t : String) (cfg : TaskConfig) (d : String)
    (hmem : (t, cfg) ∈ tasks) (hd : d ∈ cfg.needs) (hdk : d ∉ tasks.map Prod.fst) :
    (topoRun (BuildDAG tasks)).length ≠ (tasks.map Prod.fst).length := by
  have hpost := topoRun_post tasks hnd
  have hneeds : needsOf tasks t = cfg.needs := by
    unfold needsOf
    rw [lookup_eq_some_of_mem tasks hnd t cfg hmem]
  have htR : t ∉ topoRun (BuildDAG tasks) := by
    intro htR
    have := topoChain_closed hpost.2.2.1 htR d (hneeds ▸ hd)
    exact hdk (hpost.2.1 d this)
  intro hlen
  have hsub : (topoRun (BuildDAG tasks)).Subperm (tasks.map Prod.fst) :=
    List.Nodup.subperm hpost.1 (fun a ha => hpost.2.1 a ha)
  have hperm := hsub.perm_of_length_le (by omega)
  have htk : t ∈ tasks.map Prod.fst := List.mem_map.mpr ⟨(t, cfg), hmem, rfl⟩
  exact htR (hperm.mem_iff.mpr htk)

/-! ## Determinism of `TopologicalSort` (map-iteration-order independence) -/

theorem kahnLoop_congr (rev1 rev2 : String → List String)
    (hrev : ∀ c, List.Perm (rev1 c) (rev2 c)) :
    ∀ fuel queue deg res,
      kahnLoop rev1 fuel queue deg res = kahnLoop rev2 fuel queue deg res := by
  intro fuel
  induction fuel with
  | zero => intro queue deg res; rfl
  | succ f ih =>
    intro queue deg res
    cases queue with
    | nil => rfl
    | cons current qtail =>
      rw [kahnLoop_cons, kahnLoop_cons]
      have hdeg : ((rev1 current).foldl decrStep (deg, [])).1 =
          ((rev2 current).foldl decrStep (deg, [])).1 := by
        funext n
        rw [decrFold_deg, decrFold_deg, (hrev current).count_eq]
      have hperm12 : List.Perm ((rev1 current).foldl decrStep (deg, [])).2
          ((rev2 current).foldl decrStep (deg, [])).2 := by
        rw [List.perm_ext_iff_of_nodup (decrFold_nodup _ _) (decrFold_nodup _ _)]
        intro a
        rw [decrFold_mem, decrFold_mem, (hrev current).count_eq]
      have hsort : List.insertionSort strle ((rev1 current).foldl decrStep (deg, [])).2 =
          List.insertionSort strle ((rev2 current).foldl decrStep (deg, [])).2 :=
        List.eq_of_perm_of_sorted
          ((List.perm_insertionSort _ _).trans
            (hperm12.trans (List.perm_insertionSort _ _).symm))
          (List.sorted_insertionSort _ _) (List.sorted_insertionSort _ _)
      rw [hdeg, hsort]
      exact ih _ _ _

theorem lookup_perm {β : Type} (t1 t2 : List (String × β)) (h : List.Perm t1 t2)
    (hnd : (t1.map Prod.fst).Nodup) (a : String) : t1.lookup a = t2.lookup a := by
  have hnd2 : (t2.map Prod.fst).Nodup := ((h.map Prod.fst).nodup_iff).mp hnd
  cases hl : t1.lookup a with
  | none =>
    rw [lookup_eq_none_iff] at hl
    have hni : a ∉ t2.map Prod.fst := fun hm => hl ((h.map Prod.fst).mem_iff.mpr hm)
    exact ((lookup_eq_none_iff t2 a).mpr hni).symm
  | some b =>
    have hm := lookup_mem t1 a b hl
    exact (lookup_eq_some_of_mem t2 hnd2 a b (h.mem_iff.mp hm)).symm

/-- `TopologicalSort` computes the same order whatever order the Go map
iteration presented the tasks in. -/
theorem topologicalSort_perm_inv (t1 t2 : List (String × TaskConfig))
    (h : List.Perm t1 t2) (hnd : (t1.map Prod.fst).Nodup) :
    TopologicalSort (BuildDAG t1) = TopologicalSort (BuildDAG t2) := by
  have hnd2 : (t2.map Prod.fst).Nodup := ((h.map Prod.fst).nodup_iff).mp hnd
  have hneeds : needsOf t1 = needsOf t2 := by
    funext n
    unfold needsOf
    rw [lookup_perm t1 t2 h hnd n]
  have hdeg : (BuildDAG t1).inDeg = (BuildDAG t2).inDeg := by
    funext n
    rw [buildDAG_inDeg, buildDAG_inDeg, hneeds]
  have hrev : ∀ c, List.Perm ((BuildDAG t1).rev c) ((BuildDAG t2).rev c) := by
    intro c
    rw [List.perm_iff_count]
    intro n
    rw [buildDAG_rev_count t1 hnd, buildDAG_rev_count t2 hnd2, hneeds]
  have hkeysperm : List.Perm (BuildDAG t1).keys (BuildDAG t2).keys := h.map Prod.fst
  have hq : List.insertionSort strle
        ((BuildDAG t1).keys.filter (fun k => (BuildDAG t1).inDeg k = 0)) =
      List.insertionSort strle
        ((BuildDAG t2).keys.filter (fun k => (BuildDAG t2).inDeg k = 0)) := by
    have hpf : List.Perm
        ((BuildDAG t1).keys.filter (fun k => (BuildDAG t1).inDeg k = 0))
        ((BuildDAG t2).keys.filter (fun k => (BuildDAG t2).inDeg k = 0)) := by
      rw [hdeg]
      exact hkeysperm.filter _
    exact List.eq_of_perm_of_sorted
      ((List.perm_insertionSort _ _).trans
        (hpf.trans (List.perm_insertionSort _ _).symm))
      (List.sorted_insertionSort strle _) (List.sorted_insertionSort strle _)
  have hklen : (BuildDAG t1).keys.length = (BuildDAG t2).keys.length :=
    hkeysperm.length_eq
  unfold TopologicalSort
  simp only []
  rw [hq, hdeg, hklen, kahnLoop_congr _ _ hrev]

/-! ## Lemmas about `BuildExecutionLevels` -/

theorem innerDecr_val (l : List String) :
    ∀ (r : String → Int) (n : String),
      (l.foldl (fun r2 dep => fun m => if m = dep then r2 m - 1 else r2 m) r) n =
        r n - l.count n := by
  induction l with
  | nil => intro r n; simp
  | cons d ds ih =>
    intro r n
    rw [List.foldl_cons, ih]
    by_cases hnd : n = d
    · subst hnd
      rw [if_pos rfl, List.count_cons_self]
      push_cast
      omega
    · rw [if_neg hnd, List.count_cons_of_ne (by simpa using hnd)]

theorem levelDecr_cons (rev : String → List String) (rem : String → Int)
    (t : String) (ts : List String) :
    levelDecr rev rem (t :: ts) =
      levelDecr rev
        ((rev t).foldl (fun r2 dep => fun n => if n = dep then r2 n - 1 else r2 n) rem)
        ts := rfl

theorem levelDecr_val (rev : String → List String) :
    ∀ (L : List String) (rem : String → Int) (n : String),
      levelDecr rev rem L n = rem n - ((L.map (fun t => (rev t).count n)).sum : Int) := by
  intro L
  induction L with
  | nil => intro rem n; simp [levelDecr]
  | cons t ts ih =>
    intro rem n
    rw [levelDecr_cons, ih, innerDecr_val, List.map_cons, List.sum_cons]
    push_cast
    omega

theorem filter_notMem_append_count_list :
    ∀ (L : List String) (l res : List String), L.Nodup → (∀ c ∈ L, c ∉ res) →
      (l.filter (fun d => decide (d ∉ res))).length =
        (l.filter (fun d => decide (d ∉ res ++ L))).length +
          (L.map (fun c => l.count c)).sum := by
  intro L
  induction L with
  | nil =>
    intro l res _ _
    simp
  | cons c L' ih =>
    intro l res hnd hnotin
    have h1 := filter_notMem_append_count l res c (hnotin c (List.mem_cons_self _ _))
    have h2 := ih l (res ++ [c]) (List.nodup_cons.mp hnd).2 ?_
    · rw [h1, h2, List.append_assoc]
      simp only [List.singleton_append, List.map_cons, List.sum_cons]
      omega
    · intro c' hc'
      rw [List.mem_append, List.mem_singleton]
      rintro (h | h)
      · exact hnotin c' (List.mem_cons_of_mem _ hc') h
      · exact (List.nodup_cons.mp hnd).1 (h ▸ hc')

theorem levelsLoop_step (keys : List String) (rev : String → List String) (f : Nat)
    (remaining : String → Int) (assigned : List String) (acc : List (List String)) :
    levelsLoop keys rev (f + 1) remaining assigned acc =
      if assigned.length < keys.length then
        (if keys.filter (fun n => n ∉ assigned ∧ remaining n = 0) = [] then acc
         else levelsLoop keys rev f
          (levelDecr rev remaining (keys.filter (fun n => n ∉ assigned ∧ remaining n = 0)))
          (assigned ++ keys.filter (fun n => n ∉ assigned ∧ remaining n = 0))
          (acc ++ [keys.filter (fun n => n ∉ assigned ∧ remaining n = 0)]))
      else acc := rfl

theorem levelsOk_append (needs : String → List String) :
    ∀ (acc : List (List String)) (done : List String) (L : List String),
      LevelsOk needs done acc →
      (∀ n ∈ L, ∀ d ∈ needs n, d ∈ done ++ acc.flatten) →
      LevelsOk needs done (acc ++ [L]) := by
  intro acc
  induction acc with
  | nil =>
    intro done L _ hL
    refine ⟨?_, trivial⟩
    intro n hn d hd
    simpa using hL n hn d hd
  | cons A acc' ih =>
    intro done L hok hL
    refine ⟨hok.1, ?_⟩
    apply ih (done ++ A) L hok.2
    intro n hn d hd
    have := hL n hn d hd
    simp only [List.flatten_cons, List.append_assoc] at this ⊢
    exact this

theorem levelsOk_index (needs : String → List String) :
    ∀ (acc : List (List String)) (done : List String), LevelsOk needs done acc →
      ∀ (i : Nat) (hi : i < acc.length), ∀ n ∈ acc.get ⟨i, hi⟩, ∀ d ∈ needs n,
        d ∈ done ++ (acc.take i).flatten := by
  intro acc
  induction acc with
  | nil => intro done _ i hi; exact absurd hi (by simp)
  | cons A acc' ih =>
    intro done hok i hi n hn d hd
    cases i with
    | zero =>
      simp only [List.take_zero, List.flatten_nil, List.append_nil]
      exact hok.1 n hn d hd
    | succ i' =>
      have := ih (done ++ A) hok.2 i' (by simpa using hi) n hn d hd
      simp only [List.take_succ_cons, List.flatten_cons, List.append_assoc] at this ⊢
      exact this

theorem levelsOk_chain (needs : String → List String) :
    ∀ (acc : List (List String)) (done : List String), LevelsOk needs done acc →
      ∀ l1 n l2, acc.flatten = l1 ++ n :: l2 → ∀ d ∈ needs n, d ∈ done ++ l1 := by
  intro acc
  induction acc with
  | nil =>
    intro done _ l1 n l2 h
    exact absurd h.symm (by simp)
  | cons A acc' ih =>
    intro done hok l1 n l2 hsp d hd
    rw [List.flatten_cons] at hsp
    rcases List.append_eq_append_iff.mp hsp with ⟨a', ha1, ha2⟩ | ⟨c', hc1, hc2⟩
    · -- l1 = A ++ a', flatten acc' = a' ++ n :: l2
      have hres := ih (done ++ A) hok.2 a' n l2 ha2 d hd
      rw [ha1, ← List.append_assoc]
      exact hres
    · -- A = l1 ++ c', n :: l2 = c' ++ flatten acc'
      cases c' with
      | nil =>
        simp only [List.nil_append] at hc2
        rw [List.append_nil] at hc1
        have hres := ih (done ++ A) hok.2 [] n l2 hc2.symm d hd
        rw [List.append_nil] at hres
        rw [hc1] at hres
        exact hres
      | cons c0 c'' =>
        injection hc2 with hn hrest
        have hnA : n ∈ A := by
          rw [hc1, hn]
          exact List.mem_append_right _ (List.mem_cons_self _ _)
        exact List.mem_append_left _ (hok.1 n hnA d hd)

/-- Main invariant argument for the peeling loop of `BuildExecutionLevels`. -/
theorem levelsLoop_post (keys : List String) (needs rev : String → List String)
    (hknd : keys.Nodup)
    (hcnt : ∀ c n, (rev c).count n = (needs n).count c)
    (hdeps : ∀ n, ∀ d ∈ needs n, d ∈ keys)
    (hwf : WellFounded (fun d n => d ∈ needs n)) :
    ∀ (fuel : Nat) (rem : String → Int) (assigned : List String) (acc : List (List String)),
      assigned = acc.flatten →
      acc.flatten.Nodup →
      (∀ n ∈ acc.flatten, n ∈ keys) →
      (∀ n ∈ keys,
        rem n = (((needs n).filter (fun d => decide (d ∉ acc.flatten))).length : Int)) →
      LevelsOk needs [] acc →
      keys.length - assigned.length < fuel →
      (levelsLoop keys rev fuel rem assigned acc).flatten.Nodup ∧
      (∀ n ∈ (levelsLoop keys rev fuel rem assigned acc).flatten, n ∈ keys) ∧
      LevelsOk needs [] (levelsLoop keys rev fuel rem assigned acc) ∧
      (∀ k ∈ keys, k ∈ (levelsLoop keys rev fuel rem assigned acc).flatten) := by
  intro fuel
  induction fuel with
  | zero =>
    intro rem assigned acc _ _ _ _ _ hfuel
    exact absurd hfuel (Nat.not_lt_zero _)
  | succ f ih =>
    intro rem assigned acc hflat hnodup hsub hrem hok hfuel
    rw [levelsLoop_step]
    by_cases hsz : assigned.length < keys.length
    · rw [if_pos hsz]
      by_cases hL : keys.filter (fun n => n ∉ assigned ∧ rem n = 0) = []
      · rw [if_pos hL]
        -- defensive break; under acyclicity every task is already assigned
        have hcov : ∀ k ∈ keys, k ∈ acc.flatten := by
          by_contra hcon
          push_neg at hcon
          obtain ⟨k0, hk0, hk0f⟩ := hcon
          obtain ⟨u, hu, humin⟩ := hwf.has_min
            {k | k ∈ keys ∧ k ∉ acc.flatten} ⟨k0, hk0, hk0f⟩
          have hneeds_in : ∀ d ∈ needs u, d ∈ acc.flatten := by
            intro d hd
            by_contra hdf
            exact humin d ⟨hdeps u d hd, hdf⟩ hd
          have hrem0 : rem u = 0 := by
            rw [hrem u hu.1]
            have hfe : (needs u).filter (fun d => decide (d ∉ acc.flatten)) = [] := by
              rw [List.filter_eq_nil_iff]
              intro a ha
              simpa using hneeds_in a ha
            rw [hfe]
            rfl
          have humem : u ∈ keys.filter (fun n => n ∉ assigned ∧ rem n = 0) :=
            List.mem_filter.mpr ⟨hu.1, by
              rw [hflat]
              exact decide_eq_true (by exact ⟨hu.2, hrem0⟩)⟩
          rw [hL] at humem
          exact absurd humem (by simp)
        exact ⟨hnodup, hsub, hok, hcov⟩
      · rw [if_neg hL]
        have hLmem : ∀ n ∈ keys.filter (fun n => n ∉ assigned ∧ rem n = 0),
            n ∈ keys ∧ n ∉ assigned ∧ rem n = 0 := by
          intro n hn
          have := List.mem_filter.mp hn
          exact ⟨this.1, of_decide_eq_true this.2⟩
        have hLnodup : (keys.filter (fun n => n ∉ assigned ∧ rem n = 0)).Nodup :=
          hknd.filter _
        have hLne : ∃ x, x ∈ keys.filter (fun n => n ∉ assigned ∧ rem n = 0) :=
          List.exists_mem_of_ne_nil _ hL
        have hLzero_needs : ∀ n ∈ keys.filter (fun n => n ∉ assigned ∧ rem n = 0),
            ∀ d ∈ needs n, d ∈ acc.flatten := by
          intro n hn d hd
          obtain ⟨hk, _, h0⟩ := hLmem n hn
          have he := hrem n hk
          rw [h0] at he
          have hlen : ((needs n).filter (fun d => decide (d ∉ acc.flatten))).length = 0 := by
            exact_mod_cast he.symm
          have hnil := List.length_eq_zero.mp hlen
          by_contra hdf
          have hmem : d ∈ (needs n).filter (fun d => decide (d ∉ acc.flatten)) :=
            List.mem_filter.mpr ⟨hd, by simpa using hdf⟩
          rw [hnil] at hmem
          exact absurd hmem (by simp)
        apply ih
        · rw [List.flatten_append, hflat]
          simp
        · rw [List.flatten_append, List.flatten_cons, List.flatten_nil, List.append_nil]
          refine List.Nodup.append hnodup hLnodup ?_
          intro x hx1 hx2
          exact (hLmem x hx2).2.1 (hflat ▸ hx1)
        · intro n hn
          rw [List.flatten_append, List.flatten_cons, List.flatten_nil,
            List.append_nil] at hn
          rcases List.mem_append.mp hn with h | h
          · exact hsub n h
          · exact (hLmem n h).1
        · intro n hk
          rw [levelDecr_val, hrem n hk]
          rw [List.flatten_append, List.flatten_cons, List.flatten_nil, List.append_nil]
          have hmc : (keys.filter (fun n => n ∉ assigned ∧ rem n = 0)).map
              (fun t => (rev t).count n) =
              (keys.filter (fun n => n ∉ assigned ∧ rem n = 0)).map
                (fun t => (needs n).count t) :=
            List.map_congr_left (fun t _ => hcnt t n)
          rw [hmc]
          have hcl := filter_notMem_append_count_list
            (keys.filter (fun n => n ∉ assigned ∧ rem n = 0)) (needs n) acc.flatten
            hLnodup (fun c hc => hflat ▸ (hLmem c hc).2.1)
          rw [hcl]
          push_cast
          ring
        · apply levelsOk_append needs acc [] _ hok
          intro n hn d hd
          simpa using hLzero_needs n hn d hd
        · obtain ⟨x, hx⟩ := hLne
          have hLlen : 1 ≤ (keys.filter (fun n => n ∉ assigned ∧ rem n = 0)).length := by
            cases hfl : keys.filter (fun n => n ∉ assigned ∧ rem n = 0) with
            | nil => exact absurd hfl hL
            | cons _ _ => simp
          rw [List.length_append]
          omega
    · rw [if_neg hsz]
      have hcov : ∀ k ∈ keys, k ∈ acc.flatten := by
        have hsp : acc.flatten.Subperm keys :=
          List.Nodup.subperm hnodup (fun a ha => hsub a ha)
        have hlen : keys.length ≤ acc.flatten.length := by
          rw [hflat] at hsz
          omega
        have hperm := hsp.perm_of_length_le hlen
        exact fun k hk => hperm.mem_iff.mpr hk
      exact ⟨hnodup, hsub, hok, hcov⟩

theorem buildExecutionLevels_eq (d : DAG) :
    BuildExecutionLevels d =
      if d.keys.length = 0 then []
      else levelsLoop d.keys d.rev (d.keys.length + 1) d.inDeg [] [] := rfl

theorem buildExecutionLevels_post (tasks : List (String × TaskConfig))
    (hnd : (tasks.map Prod.fst).Nodup)
    (hdeps : ∀ n, ∀ d ∈ needsOf tasks n, d ∈ tasks.map Prod.fst)
    (hacyc : Acyclic tasks) :
    (BuildExecutionLevels (BuildDAG tasks)).flatten.Nodup ∧
    (∀ n ∈ (BuildExecutionLevels (BuildDAG tasks)).flatten, n ∈ tasks.map Prod.fst) ∧
    LevelsOk (needsOf tasks) [] (BuildExecutionLevels (BuildDAG tasks)) ∧
    (∀ k ∈ tasks.map Prod.fst, k ∈ (BuildExecutionLevels (BuildDAG tasks)).flatten) := by
  rw [buildExecutionLevels_eq]
  by_cases hz : (BuildDAG tasks).keys.length = 0
  · rw [if_pos hz]
    have hkeys : tasks.map Prod.fst = [] := List.length_eq_zero.mp hz
    refine ⟨by simp, by simp, trivial, ?_⟩
    intro k hk
    rw [hkeys] at hk
    exact absurd hk (by simp)
  · rw [if_neg hz]
    apply levelsLoop_post (tasks.map Prod.fst) (needsOf tasks) (BuildDAG tasks).rev hnd
      (buildDAG_rev_count tasks hnd) hdeps hacyc
    · rfl
    · simp
    · simp
    · intro n _
      rw [buildDAG_inDeg]
      simp
    · trivial
    · rw [buildDAG_keys]
      simp

theorem flatten_level_unique (L : List (List String)) (hnd : L.flatten.Nodup)
    (i j : Nat) (hi : i < L.length) (hj : j < L.length) (a : String)
    (hai : a ∈ L.get ⟨i, hi⟩) (haj : a ∈ L.get ⟨j, hj⟩) : i = j := by
  have hpw := (List.nodup_flatten.mp hnd).2
  rw [List.pairwise_iff_getElem] at hpw
  by_contra hne
  rcases Nat.lt_or_ge i j with h | h
  · exact hpw i j hi hj h hai haj
  · have hji : j < i := by omega
    exact hpw j i hj hi hji haj hai

theorem mem_flatten_level (L : List (List String)) (a : String) (h : a ∈ L.flatten) :
    ∃ i, ∃ hi : i < L.length, a ∈ L.get ⟨i, hi⟩ := by
  obtain ⟨l, hl, hal⟩ := List.mem_flatten.mp h
  obtain ⟨n, hn⟩ := List.mem_iff_get.mp hl
  exact ⟨n.1, n.2, hn ▸ hal⟩

theorem mem_take_level (L : List (List String)) (i : Nat) (d : String)
    (h : d ∈ (L.take i).flatten) :
    ∃ k, ∃ hk : k < L.length, k < i ∧ d ∈ L.get ⟨k, hk⟩ := by
  obtain ⟨k, hk, hdk⟩ := mem_flatten_level (L.take i) d h
  have hk2 : k < L.length ∧ k < i := by
    have := hk
    rw [List.length_take] at this
    omega
  refine ⟨k, hk2.1, hk2.2, ?_⟩
  have : (L.take i).get ⟨k, hk⟩ = L.get ⟨k, hk2.1⟩ := by
    simp [List.getElem_take]
  rw [← this]
  exact hdk

/-- A direct dependency always sits in a strictly earlier level. -/
theorem edge_level_lt (L : List (List String)) (needs : String → List String)
    (hnd : L.flatten.Nodup) (hok : LevelsOk needs [] L) :
    ∀ x y i j (hi : i < L.length) (hj : j < L.length),
      x ∈ L.get ⟨i, hi⟩ → y ∈ L.get ⟨j, hj⟩ → y ∈ needs x → j < i := by
  intro x y i j hi hj hx hy hneed
  have hd := levelsOk_index needs L [] hok i hi x hx y hneed
  rw [List.nil_append] at hd
  obtain ⟨k, hk, hki, hdk⟩ := mem_take_level L i y hd
  have : k = j := flatten_level_unique L hnd k j hk hj y hdk hy
  omega

/-- Transitive dependence always decreases the level index. -/
theorem dependsOn_level_lt (tasks : List (String × TaskConfig))
    (L : List (List String)) (hnd : L.flatten.Nodup)
    (hok : LevelsOk (needsOf tasks) [] L)
    (hcov : ∀ k ∈ tasks.map Prod.fst, k ∈ L.flatten) :
    ∀ a b, DependsOn tasks a b →
      ∀ i j (hi : i < L.length) (hj : j < L.length),
        a ∈ L.get ⟨i, hi⟩ → b ∈ L.get ⟨j, hj⟩ → j < i := by
  intro a b h
  induction h with
  | single hr =>
    intro i j hi hj ha hb
    exact edge_level_lt L (needsOf tasks) hnd hok a _ i j hi hj ha hb hr
  | tail htg hr ih =>
    rename_i c b'
    intro i j hi hj ha hb
    have hck : c ∈ tasks.map Prod.fst := needsOf_mem_keys tasks c b' hr
    obtain ⟨k, hk, hckl⟩ := mem_flatten_level L c (hcov c hck)
    have h1 : j < k := edge_level_lt L (needsOf tasks) hnd hok c b' k j hk hj hckl hb hr
    have h2 : k < i := ih i k hi hk ha hckl
    omega

/-! ## Lemmas about the executor -/

theorem executeTask_no_adapter (reg : AgentRegistry) (st : ExecState) (t : ExecutionTask)
    (h : reg t.tool = none) :
    executeTask reg st t =
      (mkTaskResult t "" "" ("no adapter for tool \"" ++ t.tool ++ "\"") 1 false,
       { st with store := st.store ++
          [.taskSaved (mkTaskResult t "" "" ("no adapter for tool \"" ++ t.tool ++ "\"") 1 false)] },
       some ("no adapter registered for tool \"" ++ t.tool ++ "\"")) := by
  unfold executeTask
  rw [h]

theorem executeTask_transport_error (reg : AgentRegistry) (st : ExecState)
    (t : ExecutionTask) (agent : Agent) (e : String)
    (hreg : reg t.tool = some agent)
    (herr : agent { t with prompt := ExpandPrompt t.prompt st.outputs } = .error e) :
    executeTask reg st t =
      (mkTaskResult t (ExpandPrompt t.prompt st.outputs) "" e 1 false,
       { st with store := st.store ++
          [.taskSaved (mkTaskResult t (ExpandPrompt t.prompt st.outputs) "" e 1 false)] },
       some ("task \"" ++ t.name ++ "\" failed: " ++ e)) := by
  unfold executeTask
  rw [hreg]
  simp only []
  rw [herr]

theorem executeTask_dispatched (reg : AgentRegistry) (st : ExecState)
    (t : ExecutionTask) (agent : Agent) (r : AgentResult)
    (hreg : reg t.tool = some agent)
    (hok : agent { t with prompt := ExpandPrompt t.prompt st.outputs } = .ok r) :
    executeTask reg st t =
      (mkTaskResult t (ExpandPrompt t.prompt st.outputs) r.stdout r.stderr r.exitCode r.success,
       { outputs := mapSet st.outputs t.name r.stdout
         store := st.store ++
          [.taskSaved (mkTaskResult t (ExpandPrompt t.prompt st.outputs)
            r.stdout r.stderr r.exitCode r.success)] },
       if r.success then none
       else some ("task \"" ++ t.name ++ "\" failed with exit code " ++ toString r.exitCode)) := by
  unfold executeTask
  rw [hreg]
  simp only []
  rw [hok]
  simp only []
  by_cases hs : r.success
  · rw [if_pos hs, if_pos hs]
  · rw [if_neg hs, if_neg hs]

/-- If `executeTask` returns an error, the recorded `TaskResult` is a failed
one. -/
theorem executeTask_err_failed (reg : AgentRegistry) (st : ExecState) (t : ExecutionTask)
    (e : String) (h : (executeTask reg st t).2.2 = some e) :
    (executeTask reg st t).1.success = false := by
  cases hreg : reg t.tool with
  | none => rw [executeTask_no_adapter reg st t hreg]; rfl
  | some agent =>
    cases hrun : agent { t with prompt := ExpandPrompt t.prompt st.outputs } with
    | error e' => rw [executeTask_transport_error reg st t agent e' hreg hrun]; rfl
    | ok r =>
      rw [executeTask_dispatched reg st t agent r hreg hrun] at h ⊢
      by_cases hs : r.success
      · rw [if_pos hs] at h
        exact absurd h (by simp)
      · show r.success = false
        simpa using hs

theorem executeSeqAux_cons (reg : AgentRegistry) (st : ExecState) (t : ExecutionTask)
    (rest : List ExecutionTask) :
    executeSeqAux reg st (t :: rest) =
      match executeTask reg st t with
      | (tr, st', some e) => ([tr], st', some e)
      | (tr, st', none) =>
        let r := executeSeqAux reg st' rest
        (tr :: r.1, r.2) := rfl

/-- Running a prefix that succeeds followed by more tasks decomposes. -/
theorem executeSeqAux_append (reg : AgentRegistry) :
    ∀ (pre : List ExecutionTask) (st st1 : ExecState) (trs : List TaskResult),
      executeSeqAux reg st pre = (trs, st1, none) →
      ∀ rest, executeSeqAux reg st (pre ++ rest) =
        (trs ++ (executeSeqAux reg st1 rest).1, (executeSeqAux reg st1 rest).2) := by
  intro pre
  induction pre with
  | nil =>
    intro st st1 trs h rest
    have h1 : trs = [] ∧ st1 = st := by
      have := h.symm
      injection this with h1 h2
      injection h2 with h3 h4
      exact ⟨h1, h3⟩
    rw [h1.1, h1.2]
    simp
  | cons t pre' ih =>
    intro st st1 trs h rest
    rw [executeSeqAux_cons] at h
    rw [List.cons_append, executeSeqAux_cons]
    rcases he : executeTask reg st t with ⟨tr, st', oerr⟩
    cases oerr with
    | some e =>
      rw [he] at h
      simp only [] at h
      exact absurd (congrArg (fun p => p.2.2) h) (by simp)
    | none =>
      rw [he] at h
      simp only [] at h ⊢
      have hpre : executeSeqAux reg st' pre' = ((executeSeqAux reg st' pre').1, (executeSeqAux reg st' pre').2.1, (executeSeqAux reg st' pre').2.2) := rfl
      have h1 : tr :: (executeSeqAux reg st' pre').1 = trs := congrArg (fun p => p.1) h
      have h2 : (executeSeqAux reg st' pre').2.1 = st1 := congrArg (fun p => p.2.1) h
      have h3 : (executeSeqAux reg st' pre').2.2 = none := congrArg (fun p => p.2.2) h
      have hih := ih st' ((executeSeqAux reg st' pre').2.1) ((executeSeqAux reg st' pre').1)
        (by rw [← h3]) rest
      rw [hih, h2, ← h1]
      simp

/-- Hitting a failing task stops the walk: the failing task's result is the
last one recorded and nothing after it runs. -/
theorem executeSeqAux_stop (reg : AgentRegistry)
    (pre : List ExecutionTask) (st st1 : ExecState) (trs : List TaskResult)
    (hpre : executeSeqAux reg st pre = (trs, st1, none))
    (t : ExecutionTask) (tr : TaskResult) (st2 : ExecState) (e : String)
    (hfail : executeTask reg st1 t = (tr, st2, some e)) (post : List ExecutionTask) :
    executeSeqAux reg st (pre ++ t :: post) = (trs ++ [tr], st2, some e) := by
  rw [executeSeqAux_append reg pre st st1 trs hpre (t :: post)]
  rw [executeSeqAux_cons, hfail]

theorem executeSequential_eq (reg : AgentRegistry) (runID : String) (st0 : ExecState)
    (tasks : List ExecutionTask) (trs : List TaskResult) (st1 : ExecState)
    (oerr : Option String) (h : executeSeqAux reg st0 tasks = (trs, st1, oerr)) :
    executeSequential reg runID st0 tasks =
      ({ runID := runID, success := oerr = none, tasks := trs },
       { st1 with store := st1.store ++
          [.runSaved { runID := runID, success := oerr = none, tasks := trs }] },
       oerr) := by
  simp only [executeSequential, h]

/-! ## Lemmas about the parallel level model -/

/-- The semaphore bound: no reachable state has more workers inside the
semaphore than its capacity. -/
theorem levelReachable_running_le (cancelled : Bool) (cap : Nat) (levelTasks : List String)
    (s : LevelState) (h : LevelReachable cancelled cap levelTasks s) :
    s.running.length ≤ cap := by
  induction h with
  | refl => simp [levelInit]
  | tail hsteps hstep ih =>
    cases hstep with
    | start n hn hcap =>
      dsimp only
      rw [List.length_append]
      simp only [List.length_cons, List.length_nil]
      omega
    | finish n r hn =>
      have hle := List.length_erase_of_mem hn
      dsimp only
      omega
    | abort n hn hc =>
      have hle := List.length_erase_of_mem hn
      dsimp only
      omega

/-- The task names across the pending/running/recorded partitions of a
level state. -/
def levelNames (s : LevelState) : List String :=
  s.results.map Prod.fst ++ s.running ++ s.pending

theorem levelStep_conserve (cancelled : Bool) (cap : Nat) (s s' : LevelState)
    (hc : cancelled = false) (hstep : LevelStep cancelled cap s s') :
    List.Perm (levelNames s') (levelNames s) := by
  cases hstep with
  | start n hn hcap =>
    unfold levelNames
    dsimp only
    have hp : List.Perm s.pending (n :: s.pending.erase n) := List.perm_cons_erase hn
    have h1 : s.results.map Prod.fst ++ (s.running ++ [n]) ++ s.pending.erase n
        = s.results.map Prod.fst ++ s.running ++ (n :: s.pending.erase n) := by
      simp [List.append_assoc]
    rw [h1]
    exact List.Perm.append_left _ hp.symm
  | finish n r hn =>
    unfold levelNames
    dsimp only
    have hp : List.Perm s.running (n :: s.running.erase n) := List.perm_cons_erase hn
    have h1 : (s.results ++ [(n, r)]).map Prod.fst ++ s.running.erase n ++ s.pending
        = s.results.map Prod.fst ++ (n :: s.running.erase n) ++ s.pending := by
      simp [List.append_assoc]
    rw [h1]
    exact (List.Perm.append_left _ hp.symm).append_right _
  | abort n hn hcan =>
    rw [hc] at hcan
    exact absurd hcan (by simp)

/-- Without cancellation, once the level barrier is passed every task of the
level has contributed exactly one recorded result. -/
theorem levelDone_results (cap : Nat) (levelTasks : List String) (s : LevelState)
    (h : LevelReachable false cap levelTasks s) (hdone : LevelDone s) :
    List.Perm (s.results.map Prod.fst) levelTasks := by
  have hcons : List.Perm (levelNames s) levelTasks := by
    clear hdone
    induction h with
    | refl => simp [levelNames, levelInit]
    | tail hsteps hstep ih =>
      exact (levelStep_conserve false cap _ _ rfl hstep).trans ih
  unfold levelNames at hcons
  rw [hdone.1, hdone.2] at hcons
  simpa using hcons

/-! ## Further helper lemmas for the claim theorems -/

/-- The substitution loop of `ExpandPrompt` preserves any occurrence of a
placeholder whose identifier is not among the identifiers still to be
substituted — the loop never scans the accumulated result for new matches. -/
theorem expandFold_keeps_ph_notIn (outputs : List (String × String)) (x : List Char)
    (hx : IsIdent x) :
    ∀ (ids : List (List Char)) (s : List Char), (∀ id ∈ ids, IsIdent id) → x ∉ ids →
      phOf x <:+: s →
      phOf x <:+: ids.foldl
        (fun result id =>
          match outputs.lookup (String.mk id) with
          | some out => replaceAll result (phOf id) out.data
          | none => result) s := by
  intro ids
  induction ids with
  | nil => intro s _ _ h; exact h
  | cons i is ih =>
    intro s hids hnm h
    simp only [List.foldl_cons]
    have hnm' : x ∉ is := fun hc => hnm (List.mem_cons_of_mem i hc)
    have hix : x ≠ i := fun hc => hnm (hc ▸ List.mem_cons_self i is)
    cases hl : outputs.lookup (String.mk i) with
    | none =>
      simp only [hl]
      exact ih s (fun id hid => hids id (List.mem_cons_of_mem i hid)) hnm' h
    | some out =>
      simp only [hl]
      exact ih _ (fun id hid => hids id (List.mem_cons_of_mem i hid)) hnm'
        (replaceAll_keeps_ph x i out.data hx (hids i (List.mem_cons_self i is)) hix
          s.length s (Nat.le_refl _) h)

/-- With no reverse edges at all, the Kahn loop just drains the queue. -/
theorem kahnLoop_no_rev (rev : String → List String) (hrev : ∀ c, rev c = []) :
    ∀ (fuel : Nat) (queue : List String) (deg : String → Int) (res : List String),
      queue.length ≤ fuel → kahnLoop rev fuel queue deg res = res ++ queue := by
  intro fuel
  induction fuel with
  | zero =>
    intro queue deg res hq
    have hqe : queue = [] := List.length_eq_zero.mp (Nat.le_zero.mp hq)
    rw [hqe]
    simp [kahnLoop]
  | succ f ih =>
    intro queue deg res hq
    cases queue with
    | nil => simp [kahnLoop]
    | cons current qtail =>
      rw [kahnLoop_cons, hrev current]
      have he : List.insertionSort strle (([] : List String).foldl decrStep (deg, [])).2 =
          [] := rfl
      have hd : (([] : List String).foldl decrStep (deg, [])).1 = deg := rfl
      rw [he, hd, List.append_nil]
      rw [ih qtail deg (res ++ [current])
        (by simp only [List.length_cons] at hq; omega)]
      simp

/-- When no task declares any dependency, `TopologicalSort` returns exactly
the lexicographically sorted key list. -/
theorem topologicalSort_indep (tasks : List (String × TaskConfig))
    (hnd : (tasks.map Prod.fst).Nodup)
    (hind : ∀ p ∈ tasks, p.2.needs = []) :
    TopologicalSort (BuildDAG tasks) =
      .ok (List.insertionSort strle (tasks.map Prod.fst)) := by
  have hneeds : ∀ n, needsOf tasks n = [] := by
    intro n
    unfold needsOf
    cases hl : tasks.lookup n with
    | none => rfl
    | some c => exact hind (n, c) (lookup_mem tasks n c hl)
  have hdeg : ∀ n, (BuildDAG tasks).inDeg n = 0 := by
    intro n
    simp [buildDAG_inDeg, hneeds]
  have hrev : ∀ c, (BuildDAG tasks).rev c = [] := by
    intro c
    rw [List.eq_nil_iff_forall_not_mem]
    intro n hn
    have hc := List.count_pos_iff.mpr hn
    rw [buildDAG_rev_count tasks hnd c n, hneeds] at hc
    simp at hc
  have hfilter : (BuildDAG tasks).keys.filter (fun k => (BuildDAG tasks).inDeg k = 0) =
      (BuildDAG tasks).keys := by
    apply List.filter_eq_self.mpr
    intro a _
    simp [hdeg a]
  have hlen : (List.insertionSort strle (BuildDAG tasks).keys).length =
      (BuildDAG tasks).keys.length := (List.perm_insertionSort strle _).length_eq
  unfold TopologicalSort
  simp only []
  rw [hfilter]
  rw [kahnLoop_no_rev ((BuildDAG tasks).rev) hrev
    ((BuildDAG tasks).keys.length + (List.insertionSort strle (BuildDAG tasks).keys).length + 1)
    (List.insertionSort strle (BuildDAG tasks).keys) ((BuildDAG tasks).inDeg) [] (by omega)]
  rw [List.nil_append]
  rw [if_pos hlen]
  rfl

/-! ## Concrete instances used by the witness theorems -/

/-- A task with no dependencies. -/
def cfgA : TaskConfig := { agent := "ag", prompt := "", write := false, needs := [] }

/-- A task depending on `a`. -/
def cfgB : TaskConfig := { agent := "ag", prompt := "", write := false, needs := ["a"] }

/-- Two tasks, `b` needs `a`. -/
def tasksW : List (String × TaskConfig) := [("a", cfgA), ("b", cfgB)]

/-- The same map presented in the opposite iteration order. -/
def tasksWR : List (String × TaskConfig) := [("b", cfgB), ("a", cfgA)]

/-- A task whose dependency names no task of the map. -/
def cfgD : TaskConfig := { agent := "ag", prompt := "", write := false, needs := ["ghost"] }

/-- One task with a dangling dependency. -/
def tasksD : List (String × TaskConfig) := [("a", cfgD)]

/-- `A` needs `B` and `B` needs `A`, `A` first in iteration order. -/
def tasksAB : List (String × TaskConfig) :=
  [("A", { agent := "ag", prompt := "", write := false, needs := ["B"] }),
   ("B", { agent := "ag", prompt := "", write := false, needs := ["A"] })]

/-- `A` needs `B` and `B` needs `A`, `B` first in iteration order. -/
def tasksBA : List (String × TaskConfig) :=
  [("B", { agent := "ag", prompt := "", write := false, needs := ["A"] }),
   ("A", { agent := "ag", prompt := "", write := false, needs := ["B"] })]

theorem tasksW_acyclic : Acyclic tasksW := by
  have hna : needsOf tasksW "a" = [] := rfl
  have hnb : needsOf tasksW "b" = ["a"] := rfl
  have acc_a : Acc (NeedsRel tasksW) "a" := by
    refine Acc.intro _ (fun d hd => ?_)
    have hd' : d ∈ needsOf tasksW "a" := hd
    rw [hna] at hd'
    exact absurd hd' (List.not_mem_nil d)
  have acc_b : Acc (NeedsRel tasksW) "b" := by
    refine Acc.intro _ (fun d hd => ?_)
    have hd' : d ∈ needsOf tasksW "b" := hd
    rw [hnb] at hd'
    have he : d = "a" := by simpa using hd'
    rw [he]
    exact acc_a
  constructor
  intro z
  by_cases hza : z = "a"
  · rw [hza]; exact acc_a
  by_cases hzb : z = "b"
  · rw [hzb]; exact acc_b
  refine Acc.intro _ (fun d hd => ?_)
  have hd' : d ∈ needsOf tasksW z := hd
  have hz : needsOf tasksW z = [] :=
    needsOf_nonkey tasksW z (by simp [tasksW, hza, hzb])
  rw [hz] at hd'
  exact absurd hd' (List.not_mem_nil d)

theorem tasksD_acyclic : Acyclic tasksD := by
  have hng : needsOf tasksD "ghost" = [] := rfl
  have hna : needsOf tasksD "a" = ["ghost"] := rfl
  have acc_g : Acc (NeedsRel tasksD) "ghost" := by
    refine Acc.intro _ (fun d hd => ?_)
    have hd' : d ∈ needsOf tasksD "ghost" := hd
    rw [hng] at hd'
    exact absurd hd' (List.not_mem_nil d)
  have acc_a : Acc (NeedsRel tasksD) "a" := by
    refine Acc.intro _ (fun d hd => ?_)
    have hd' : d ∈ needsOf tasksD "a" := hd
    rw [hna] at hd'
    have he : d = "ghost" := by simpa using hd'
    rw [he]
    exact acc_g
  constructor
  intro z
  by_cases hza : z = "a"
  · rw [hza]; exact acc_a
  refine Acc.intro _ (fun d hd => ?_)
  have hd' : d ∈ needsOf tasksD z := hd
  have hz : needsOf tasksD z = [] :=
    needsOf_nonkey tasksD z (by simp [tasksD, hza])
  rw [hz] at hd'
  exact absurd hd' (List.not_mem_nil d)

/-- A registry whose only agent fails at transport level. -/
def regW : AgentRegistry := fun _ => some (fun _ => Except.error "boom")

/-- The failing first task of the two-task sequential plan. -/
def taskA : ExecutionTask :=
  { name := "A", agentName := "ag", tool := "tool", model := "m", prompt := "pa"
    write := false, dependencies := [] }

/-- The dependent second task, never dispatched. -/
def taskB : ExecutionTask :=
  { name := "B", agentName := "ag", tool := "tool", model := "m", prompt := "pb"
    write := false, dependencies := ["A"] }

/-- The failed result recorded for `taskA` under `regW`. -/
def trA : TaskResult := mkTaskResult taskA "pa" "" "boom" 1 false

/-- Executor state right after `taskA` fails under `regW`. -/
def stA : ExecState := { outputs := [], store := [.taskSaved trA] }

/-- The error `executeTask` returns for `taskA` under `regW`. -/
def eA : String := "task \"A\" failed: boom"

/-- An agent returning a completed result with a non-zero exit code. -/
def agentF : Agent :=
  fun _ => Except.ok { stdout := "out", stderr := "err", exitCode := 2, success := false }

/-- A registry dispatching every tool to `agentF`. -/
def regF : AgentRegistry := fun _ => some agentF

/-- An executor state with one prior output. -/
def stF : ExecState := { outputs := [("x", "v")], store := [] }

/-- The result `agentF` returns. -/
def rF : AgentResult := { stdout := "out", stderr := "err", exitCode := 2, success := false }

/-- A level of five independent tasks. -/
def level5 : List String := ["t1", "t2", "t3", "t4", "t5"]

/-! ## The claim theorems -/

/-- C1: the original claim says a substituted output that itself contains
placeholder syntax is never replaced by that identifier's output.  This is
false: `ExpandPrompt` iterates the matches of the original prompt but
performs each substitution as a global replace on the accumulated result, so
a placeholder injected by an earlier output is rewritten when its identifier
is also a later match of the original prompt.  Expanding
`\x7b\x7boutputs.a\x7d\x7d \x7b\x7boutputs.b\x7d\x7d` against
`a = \x7b\x7boutputs.b\x7d\x7d, b = B` yields `B B`, and the injected
placeholder text does not survive to the result. -/
theorem C1_counterexample_reexpanded :
    ExpandPrompt "\x7b\x7boutputs.a\x7d\x7d \x7b\x7boutputs.b\x7d\x7d"
        [("a", "\x7b\x7boutputs.b\x7d\x7d"), ("b", "B")] = "B B" ∧
    ¬ (phOf "b".data <:+:
        (ExpandPrompt "\x7b\x7boutputs.a\x7d\x7d \x7b\x7boutputs.b\x7d\x7d"
          [("a", "\x7b\x7boutputs.b\x7d\x7d"), ("b", "B")]).data) := by
  refine ⟨rfl, ?_⟩
  intro h
  have hlen := h.length_le
  have h1 : (phOf "b".data).length = 13 := rfl
  have h2 : (ExpandPrompt "\x7b\x7boutputs.a\x7d\x7d \x7b\x7boutputs.b\x7d\x7d"
      [("a", "\x7b\x7boutputs.b\x7d\x7d"), ("b", "B")]).data.length = 3 := rfl
  rw [h1, h2] at hlen
  omega

/-- C1 (amended): `ExpandPrompt` is one linear left fold over the matches of
the original prompt — no fixed-point loop; an injected placeholder whose
identifier is not among the original prompt's matches is left untouched as
literal text (even when the outputs map has an entry for it), but an injected
placeholder whose identifier is matched later in the original prompt is
rewritten by that later global replace. -/
theorem C1_single_pass :
    (∀ (prompt : String) (outputs : List (String × String)),
      ExpandPrompt prompt outputs = String.mk ((findMatches prompt.data).foldl
        (fun result id =>
          match outputs.lookup (String.mk id) with
          | some out => replaceAll result (phOf id) out.data
          | none => result) prompt.data)) ∧
    (∀ (outputs : List (String × String)) (x : List Char), IsIdent x →
      ∀ (ids : List (List Char)) (s : List Char), (∀ id ∈ ids, IsIdent id) → x ∉ ids →
        phOf x <:+: s →
        phOf x <:+: ids.foldl
          (fun result id =>
            match outputs.lookup (String.mk id) with
            | some out => replaceAll result (phOf id) out.data
            | none => result) s) ∧
    ExpandPrompt "\x7b\x7boutputs.a\x7d\x7d"
        [("a", "\x7b\x7boutputs.c\x7d\x7d"), ("c", "C")] = "\x7b\x7boutputs.c\x7d\x7d" ∧
    ExpandPrompt "\x7b\x7boutputs.b\x7d\x7d \x7b\x7boutputs.a\x7d\x7d"
        [("a", "\x7b\x7boutputs.b\x7d\x7d"), ("b", "B")] = "B \x7b\x7boutputs.b\x7d\x7d" := by
  refine ⟨fun _ _ => rfl, ?_, rfl, rfl⟩
  intro outputs x hx ids s hids hnm h
  exact expandFold_keeps_ph_notIn outputs x hx ids s hids hnm h

/-- C2: in sequential mode the first failing task stops the run — no later
task is dispatched; the returned `RunResult` holds exactly the results
accumulated so far plus one failed result for the failing task, its success
flag is false, it is still persisted to the store, and the task's error is
returned. -/
theorem C2_sequential_fail_fast (reg : AgentRegistry) (runID : String) (st0 : ExecState)
    (pre : List ExecutionTask) (st1 : ExecState) (trs : List TaskResult)
    (hpre : executeSeqAux reg st0 pre = (trs, st1, none))
    (t : ExecutionTask) (tr : TaskResult) (st2 : ExecState) (e : String)
    (hfail : executeTask reg st1 t = (tr, st2, some e)) (post : List ExecutionTask) :
    executeSequential reg runID st0 (pre ++ t :: post) =
      ({ runID := runID, success := false, tasks := trs ++ [tr] },
       { st2 with store := st2.store ++
          [.runSaved { runID := runID, success := false, tasks := trs ++ [tr] }] },
       some e) ∧ tr.success = false := by
  have haux := executeSeqAux_stop reg pre st0 st1 trs hpre t tr st2 e hfail post
  have heq := executeSequential_eq reg runID st0 (pre ++ t :: post) (trs ++ [tr]) st2
    (some e) haux
  refine ⟨heq, ?_⟩
  have := executeTask_err_failed reg st1 t e (by rw [hfail])
  rw [hfail] at this
  exact this

/-- C2 witness: the plan `[A (fails), B (needs A)]` run sequentially returns
one failed `TaskResult` and never dispatches `B`. -/
theorem C2_witness :
    executeSequential regW "run1" { outputs := [], store := [] } ([] ++ taskA :: [taskB]) =
      ({ runID := "run1", success := false, tasks := [] ++ [trA] },
       { stA with store := stA.store ++
          [.runSaved { runID := "run1", success := false, tasks := [] ++ [trA] }] },
       some eA) ∧ trA.success = false :=
  C2_sequential_fail_fast regW "run1" { outputs := [], store := [] } []
    { outputs := [], store := [] } [] rfl taskA trA stA eA rfl [taskB]

/-- C3: with pairwise distinct task names and every declared dependency
naming a task, `TopologicalSort` on an acyclic graph returns a duplicate-free
order of exactly the task set in which every task sits strictly after all of
its dependencies; on a cyclic graph it returns the cycle-detected error,
having ordered strictly fewer than the task count. -/
theorem C3_toposort (tasks : List (String × TaskConfig))
    (hnd : (tasks.map Prod.fst).Nodup)
    (hdeps : ∀ p ∈ tasks, ∀ d ∈ p.2.needs, d ∈ tasks.map Prod.fst) :
    (Acyclic tasks →
      ∃ R, TopologicalSort (BuildDAG tasks) = .ok R ∧ R.length = tasks.length ∧
        R.Nodup ∧ (∀ k, k ∈ R ↔ k ∈ tasks.map Prod.fst) ∧
        IsTopoOrder (needsOf tasks) R) ∧
    (¬ Acyclic tasks →
      ∃ a, a < tasks.length ∧
        TopologicalSort (BuildDAG tasks) =
          .error s!"cycle detected: only processed {a} of {tasks.length} tasks") := by
  have hpost := topoRun_post tasks hnd
  have hmaplen : (tasks.map Prod.fst).length = tasks.length := List.length_map _ _
  have hklen : (BuildDAG tasks).keys.length = tasks.length := by
    rw [buildDAG_keys]; exact hmaplen
  constructor
  · intro hacyc
    have hcov := kahnPost_covers tasks (topoRun (BuildDAG tasks)) hpost
      (needsOf_sub_keys tasks hdeps) hacyc
    have hperm := kahnPost_perm tasks (topoRun (BuildDAG tasks)) hnd hpost hcov
    have hlen : (topoRun (BuildDAG tasks)).length = tasks.length := by
      rw [hperm.length_eq]; exact hmaplen
    refine ⟨topoRun (BuildDAG tasks), ?_, hlen, hpost.1,
      fun k => hperm.mem_iff, topoChain_isTopoOrder _ _ hpost.1 hpost.2.2.1⟩
    rw [topologicalSort_eq]
    rw [if_pos (by rw [hlen, hklen])]
  · intro hacyc
    have hne : (topoRun (BuildDAG tasks)).length ≠ (BuildDAG tasks).keys.length := by
      intro he
      exact hacyc (topoOrder_acyclic tasks (topoRun (BuildDAG tasks)) hpost
        (by rw [he, buildDAG_keys]))
    refine ⟨(topoRun (BuildDAG tasks)).length, ?_, ?_⟩
    · have hsub : (topoRun (BuildDAG tasks)).Subperm (tasks.map Prod.fst) :=
        List.Nodup.subperm hpost.1 (fun a ha => hpost.2.1 a ha)
      have hle := hsub.length_le
      rw [hmaplen] at hle
      rw [hklen] at hne
      omega
    · rw [topologicalSort_eq, if_neg hne, hklen]

/-- C3 witness: the acyclic two-task set is fully ordered. -/
theorem C3_witness :
    ∃ R, TopologicalSort (BuildDAG tasksW) = .ok R ∧ R.length = tasksW.length ∧
      R.Nodup ∧ (∀ k, k ∈ R ↔ k ∈ tasksW.map Prod.fst) ∧
      IsTopoOrder (needsOf tasksW) R :=
  (C3_toposort tasksW (by decide) (by decide)).1 tasksW_acyclic

/-- C4: for an acyclic graph with distinct names and declared dependencies,
`BuildExecutionLevels` partitions the task set exactly once, puts every
dependency of a level-`i` task in levels `0..i-1`, admits no direct or
transitive dependence between two tasks of one level, and its concatenation
in level order is a valid topological order. -/
theorem C4_execution_levels (tasks : List (String × TaskConfig))
    (hnd : (tasks.map Prod.fst).Nodup)
    (hdeps : ∀ p ∈ tasks, ∀ d ∈ p.2.needs, d ∈ tasks.map Prod.fst)
    (hacyc : Acyclic tasks) :
    (BuildExecutionLevels (BuildDAG tasks)).flatten.Nodup ∧
    (∀ k, k ∈ (BuildExecutionLevels (BuildDAG tasks)).flatten ↔
      k ∈ tasks.map Prod.fst) ∧
    (∀ i (hi : i < (BuildExecutionLevels (BuildDAG tasks)).length),
      ∀ n ∈ (BuildExecutionLevels (BuildDAG tasks)).get ⟨i, hi⟩,
        ∀ d ∈ needsOf tasks n,
          d ∈ ((BuildExecutionLevels (BuildDAG tasks)).take i).flatten) ∧
    (∀ i (hi : i < (BuildExecutionLevels (BuildDAG tasks)).length),
      ∀ a ∈ (BuildExecutionLevels (BuildDAG tasks)).get ⟨i, hi⟩,
        ∀ b ∈ (BuildExecutionLevels (BuildDAG tasks)).get ⟨i, hi⟩,
          ¬ DependsOn tasks a b) ∧
    IsTopoOrder (needsOf tasks) (BuildExecutionLevels (BuildDAG tasks)).flatten := by
  obtain ⟨hflnd, hsub, hok, hcov⟩ :=
    buildExecutionLevels_post tasks hnd (needsOf_sub_keys tasks hdeps) hacyc
  refine ⟨hflnd, fun k => ⟨hsub k, hcov k⟩, ?_, ?_, ?_⟩
  · intro i hi n hn d hd
    have := levelsOk_index (needsOf tasks) (BuildExecutionLevels (BuildDAG tasks)) []
      hok i hi n hn d hd
    simpa using this
  · intro i hi a ha b hb hdep
    have := dependsOn_level_lt tasks (BuildExecutionLevels (BuildDAG tasks)) hflnd hok
      hcov a b hdep i i hi hi ha hb
    omega
  · apply topoChain_isTopoOrder _ _ hflnd
    intro l1 n l2 hsp d hd
    have := levelsOk_chain (needsOf tasks) (BuildExecutionLevels (BuildDAG tasks)) []
      hok l1 n l2 hsp d hd
    simpa using this

/-- C4 witness: the level structure of the two-task chain partitions it. -/
theorem C4_witness :
    (BuildExecutionLevels (BuildDAG tasksW)).flatten.Nodup ∧
    ("b" ∈ (BuildExecutionLevels (BuildDAG tasksW)).flatten ↔
      "b" ∈ tasksW.map Prod.fst) := by
  have h := C4_execution_levels tasksW (by decide) (by decide) tasksW_acyclic
  exact ⟨h.1, h.2.1 "b"⟩

/-- C5: on reaching an in-progress node the DFS reports the suffix of the
current path from the repeated node with the repeated node appended; for the
two-task cycle it reports exactly `[A, B, A]`, and `[B, A, B]` when
traversal starts from `B`. -/
theorem C5_cycle_report :
    (∀ (tasks : List (String × TaskConfig)) (fuel : Nat) (name : String) (st : DfsState),
      st.color name = 1 →
      visitD tasks (fuel + 1) name st =
        (some (st.path.drop (st.path.findIdx (· = name)) ++ [name]), st)) ∧
    detectCycleSlice tasksAB = some ["A", "B", "A"] ∧
    detectCycleSlice tasksBA = some ["B", "A", "B"] := by
  refine ⟨?_, rfl, rfl⟩
  intro tasks fuel name st h
  simp only [visitD, h]
  norm_num

/-- C6: `TopologicalSort` computes one deterministic order — it is invariant
under the map-iteration order of the task set, and with no dependencies at
all (every tie broken by name) it returns exactly the lexicographically
sorted key list. -/
theorem C6_deterministic (t1 t2 : List (String × TaskConfig))
    (hperm : List.Perm t1 t2) (hnd : (t1.map Prod.fst).Nodup) :
    TopologicalSort (BuildDAG t1) = TopologicalSort (BuildDAG t2) ∧
    ((∀ p ∈ t1, p.2.needs = []) →
      TopologicalSort (BuildDAG t1) =
        .ok (List.insertionSort strle (t1.map Prod.fst))) :=
  ⟨topologicalSort_perm_inv t1 t2 hperm hnd,
   fun hind => topologicalSort_indep t1 hnd hind⟩

/-- C6 witness: the two-task map sorted from either iteration order. -/
theorem C6_witness :
    TopologicalSort (BuildDAG tasksW) = TopologicalSort (BuildDAG tasksWR) :=
  (C6_deterministic tasksW tasksWR (by decide) (by decide)).1

/-- C7: a placeholder whose identifier is missing from the outputs map
survives `ExpandPrompt` verbatim; expanding the lone missing placeholder
against an empty map returns it unchanged, and a prompt without any
placeholder match is returned unchanged. -/
theorem C7_missing_verbatim (prompt : String) (outputs : List (String × String))
    (x : List Char) (hx : IsIdent x)
    (hlook : outputs.lookup (String.mk x) = none)
    (hin : phOf x <:+: prompt.data) :
    (phOf x <:+: (ExpandPrompt prompt outputs).data) ∧
    ExpandPrompt "\x7b\x7boutputs.missing\x7d\x7d" [] = "\x7b\x7boutputs.missing\x7d\x7d" ∧
    (∀ p : String, findMatches p.data = [] → ExpandPrompt p outputs = p) := by
  refine ⟨?_, rfl, ?_⟩
  · exact expandFold_keeps_ph outputs x hx hlook (findMatches prompt.data) prompt.data
      (fun id hid => findMatchesF_ident prompt.data.length prompt.data id hid) hin
  · intro p hp
    unfold ExpandPrompt
    rw [hp]
    simp only [List.foldl_nil]

/-- C7 witness: `\x7b\x7boutputs.missing\x7d\x7d` survives in a prompt
expanded against a map without the key. -/
theorem C7_witness :
    phOf "missing".data <:+:
      (ExpandPrompt "see \x7b\x7boutputs.missing\x7d\x7d here" [("other", "v")]).data :=
  (C7_missing_verbatim "see \x7b\x7boutputs.missing\x7d\x7d here" [("other", "v")]
    "missing".data ⟨by decide, by decide⟩ rfl ⟨"see ".data, " here".data, rfl⟩).1

/-- C8: one level of `executeParallel` sizes its semaphore to
`min(max-parallel, level size)` when max-parallel is positive, no reachable
state of the level has more than that many workers inside the semaphore, and
once the level's barrier is passed without cancellation every task of the
level has contributed exactly one `TaskResult`. -/
theorem C8_parallel_semaphore (m : Nat) (levelTasks : List String) (s : LevelState)
    (hm : 0 < m)
    (hreach : LevelReachable false (maxConcurrentFor m levelTasks) levelTasks s) :
    maxConcurrentFor m levelTasks = min m levelTasks.length ∧
    s.running.length ≤ min m levelTasks.length ∧
    (LevelDone s → List.Perm (s.results.map Prod.fst) levelTasks) := by
  have hmin : maxConcurrentFor m levelTasks = min m levelTasks.length := by
    unfold maxConcurrentFor
    simp only []
    split
    · rename_i hcond
      omega
    · rename_i hcond
      omega
  refine ⟨hmin, ?_, fun hdone => levelDone_results _ levelTasks s hreach hdone⟩
  rw [← hmin]
  exact levelReachable_running_le false _ levelTasks s hreach

/-- C8 witness: five independent tasks with max-parallel 2 start with the
semaphore sized 2 and within the bound. -/
theorem C8_witness :
    maxConcurrentFor 2 level5 = min 2 level5.length ∧
    (levelInit level5).running.length ≤ min 2 level5.length := by
  have h := C8_parallel_semaphore 2 level5 (levelInit level5) (by decide)
    Relation.ReflTransGen.refl
  exact ⟨h.1, h.2.1⟩

/-- C9: whenever the agent dispatch returns a completed result — even a
failed one — `executeTask` writes the captured stdout into the shared
outputs map and persists the completed `TaskResult` before returning its
error; only a missing adapter or a transport-level dispatch error leaves the
outputs map untouched. -/
theorem C9_outputs_updated (reg : AgentRegistry) (st : ExecState) (t : ExecutionTask)
    (agent : Agent) (r : AgentResult) (hreg : reg t.tool = some agent)
    (hrun : agent { t with prompt := ExpandPrompt t.prompt st.outputs } = .ok r) :
    ((executeTask reg st t).2.1.outputs = mapSet st.outputs t.name r.stdout ∧
     (executeTask reg st t).2.1.store =
       st.store ++ [.taskSaved (executeTask reg st t).1] ∧
     (r.success = false →
       (executeTask reg st t).1.success = false ∧
       (executeTask reg st t).2.2 =
         some ("task \"" ++ t.name ++ "\" failed with exit code " ++
           toString r.exitCode))) ∧
    (∀ (st' : ExecState) (t' : ExecutionTask), reg t'.tool = none →
      (executeTask reg st' t').2.1.outputs = st'.outputs) ∧
    (∀ (st' : ExecState) (t' : ExecutionTask) (agent' : Agent) (e : String),
      reg t'.tool = some agent' →
      agent' { t' with prompt := ExpandPrompt t'.prompt st'.outputs } = .error e →
      (executeTask reg st' t').2.1.outputs = st'.outputs) := by
  have hd := executeTask_dispatched reg st t agent r hreg hrun
  refine ⟨⟨?_, ?_, ?_⟩, ?_, ?_⟩
  · rw [hd]
  · rw [hd]
  · intro hs
    rw [hd]
    refine ⟨hs, ?_⟩
    simp [hs]
  · intro st' t' hnone
    rw [executeTask_no_adapter reg st' t' hnone]
  · intro st' t' agent' e hsome herr
    rw [executeTask_transport_error reg st' t' agent' e hsome herr]

/-- C9 witness: a returned failed result still updates the outputs map and
persists its `TaskResult`. -/
theorem C9_witness :
    (executeTask regF stF taskA).2.1.outputs = mapSet stF.outputs taskA.name rF.stdout ∧
    (executeTask regF stF taskA).2.1.store =
      stF.store ++ [.taskSaved (executeTask regF stF taskA).1] :=
  ⟨(C9_outputs_updated regF stF taskA agentF rF rfl rfl).1.1,
   (C9_outputs_updated regF stF taskA agentF rF rfl rfl).1.2.1⟩

/-- C10: a dependency naming no task still gets its edge recorded — it
appears in the dependent's edge list, counts toward the dependent's
in-degree and receives a reverse edge, while never becoming a key — and
`TopologicalSort` then fails with its cycle-detected error although the
dependency relation is acyclic. -/
theorem C10_dangling_dep (tasks : List (String × TaskConfig))
    (hnd : (tasks.map Prod.fst).Nodup) (t : String) (cfg : TaskConfig) (d : String)
    (hmem : (t, cfg) ∈ tasks) (hd : d ∈ cfg.needs) (hdk : d ∉ tasks.map Prod.fst)
    (hacyc : Acyclic tasks) :
    d ∈ (BuildDAG tasks).edges t ∧
    (BuildDAG tasks).inDeg t = ((needsOf tasks t).length : Int) ∧
    t ∈ (BuildDAG tasks).rev d ∧
    d ∉ (BuildDAG tasks).keys ∧
    (∃ a : Nat, TopologicalSort (BuildDAG tasks) =
      .error s!"cycle detected: only processed {a} of {tasks.length} tasks") := by
  have hneeds : needsOf tasks t = cfg.needs := by
    unfold needsOf
    rw [lookup_eq_some_of_mem tasks hnd t cfg hmem]
  refine ⟨?_, buildDAG_inDeg tasks t, ?_, ?_, ?_⟩
  · rw [buildDAG_edges, hneeds]
    exact hd
  · have hc : 0 < ((BuildDAG tasks).rev d).count t := by
      rw [buildDAG_rev_count tasks hnd d t, hneeds]
      exact List.count_pos_iff.mpr hd
    exact List.count_pos_iff.mp hc
  · rw [buildDAG_keys]
    exact hdk
  · have hne := topoRun_dangling tasks hnd t cfg d hmem hd hdk
    have hklen : (BuildDAG tasks).keys.length = tasks.length := by
      rw [buildDAG_keys]
      exact List.length_map _ _
    have hne2 : (topoRun (BuildDAG tasks)).length ≠ (BuildDAG tasks).keys.length := hne
    refine ⟨(topoRun (BuildDAG tasks)).length, ?_⟩
    rw [topologicalSort_eq, if_neg hne2, hklen]

/-- C10 witness: the single task needing the absent `ghost` gets the edge
and the cycle-detected error. -/
theorem C10_witness :
    "ghost" ∈ (BuildDAG tasksD).edges "a" ∧
    "ghost" ∉ (BuildDAG tasksD).keys ∧
    (∃ a : Nat, TopologicalSort (BuildDAG tasksD) =
      .error s!"cycle detected: only processed {a} of {tasksD.length} tasks") := by
  have h := C10_dangling_dep tasksD (by decide) "a" cfgD "ghost" (by decide) (by decide)
    (by decide) tasksD_acyclic
  exact ⟨h.1, h.2.2.2.1, h.2.2.2.2⟩

end Cortex
